import Mathlib

/-!
Verification of the expense-tracker OCR parsing pipeline.

Shallow embedding of the receipt-text interpretation pipeline of the
`expense_tracker` repository (`backend/parsers.py`, `backend/ocr_processor.py`,
with `backend/services.py` holding near-duplicate variants).  Python strings
are modelled as `List Char` / `String`, floats as `ℚ` (all numeric literals in
play are finite decimals), dicts with optional keys as structures with
`Option` fields, and Python exceptions as `Except`.

Modelling conventions, used throughout:
* character classes `\d`, `\w`, `\s` of Python's `re` and `str.strip()` are
  modelled over their ASCII meaning (the texts in play are ASCII plus `€`);
* Python's `float()` is modelled on finite decimal literals
  (optional sign, digits, optional fraction); exotic forms (`inf`, `nan`,
  exponents, underscores) are outside the fragment the parsers produce;
* `datetime.now()` is passed in explicitly as a `PyDate` argument;
* each regular-expression search from the source is implemented by a
  dedicated fuel-based scanner whose doc comment cites the pattern; the
  scanner realises the leftmost-match-with-backtracking behaviour of `re`
  for that concrete pattern.
-/

namespace ExpenseTracker

/-- ASCII whitespace, the characters Python's `str.strip()`, `float()` and
`\s` treat as whitespace (restricted to ASCII). -/
def isPyWs (c : Char) : Bool :=
  c = ' ' || c = '\t' || c = '\n' || c = '\r' || c = '\x0b' || c = '\x0c'

/-- `\w` character class (ASCII fragment): letters, digits, underscore. -/
def isWordChar (c : Char) : Bool :=
  c.isAlpha || c.isDigit || c = '_'

/-- ASCII letter test, Python's `[a-zA-Z]`. -/
def isAsciiAlpha (c : Char) : Bool := c.isAlpha

def pyLowerL (l : List Char) : List Char := l.map Char.toLower

/-- `str.lower()` (ASCII fragment). -/
def pyLower (s : String) : String := ⟨pyLowerL s.data⟩

/-- `str.strip()` on a character list: drop whitespace from both ends. -/
def pyStripL (l : List Char) : List Char :=
  ((l.dropWhile isPyWs).reverse.dropWhile isPyWs).reverse

/-- `str.strip()`. -/
def pyStrip (s : String) : String := ⟨pyStripL s.data⟩

/-- Substring test on lists: `n` occurs contiguously in the second list. -/
def isSubL (n : List Char) : List Char → Bool
  | [] => n.isEmpty
  | h :: t => n.isPrefixOf (h :: t) || isSubL n t

/-- Python's substring containment `needle in haystack`. -/
def pyIn (needle haystack : String) : Bool :=
  isSubL needle.data haystack.data

/-- `text.split('\n')` followed by per-line `strip()` and dropping empty
lines — the `lines = [line.strip() for line in text.split('\n') if line.strip()]`
idiom shared by all parsers. -/
def pyLines (text : String) : List String :=
  (((text.data.splitOnP (· = '\n')).map (fun l => pyStrip ⟨l⟩))).filter (· ≠ "")

/-- Numeric value of a digit character. -/
def digitVal (c : Char) : ℕ := c.toNat - 48

/-- Value of a digit string read in base 10. -/
def natOfDigits (l : List Char) : ℕ :=
  l.foldl (fun n c => 10 * n + digitVal c) 0

/-- Python's `str.rfind(ch)`: index of the last occurrence, `-1` if absent. -/
def rfind (c : Char) : List Char → ℤ
  | [] => -1
  | x :: xs =>
    let r := rfind c xs
    if r ≥ 0 then r + 1 else if x = c then 0 else -1

/-- The rational `(i * 10 ^ k + f) / 10 ^ k` (i.e. `i.f` read as a decimal with
`k` fractional digits), built directly in reduced form so that it evaluates by
kernel reduction (`Rat.add`/`Rat.div` do not). -/
def decVal (i f k : ℕ) : ℚ :=
  let n := i * 10 ^ k + f
  let d := 10 ^ k
  let g := n.gcd d
  ⟨(n / g : ℕ), d / g,
    Nat.ne_of_gt (Nat.div_gcd_pos_of_pos_right _ (by positivity)),
    by
      have hg : 0 < Nat.gcd n d := Nat.gcd_pos_of_pos_right _ (by positivity)
      simpa using Nat.coprime_div_gcd_div_gcd hg⟩

/-- Unsigned part of a Python `float()` literal: `D1 [. D2]` with at least
one digit overall; value `D1 + D2 / 10 ^ |D2|`. -/
def parseUnsigned (l : List Char) : Option ℚ :=
  let d1 := l.takeWhile Char.isDigit
  let rest := l.drop d1.length
  match rest with
  | [] => if d1 = [] then none else some (decVal (natOfDigits d1) 0 0)
  | '.' :: rest2 =>
    let d2 := rest2.takeWhile Char.isDigit
    if rest2.drop d2.length ≠ [] then none
    else if d1 = [] ∧ d2 = [] then none
    else some (decVal (natOfDigits d1) (natOfDigits d2) d2.length)
  | _ => none

/-- Python's `float()` on finite decimal literals: surrounding whitespace,
optional sign, digits with an optional fractional part.  (`inf`/`nan`,
exponents and underscore separators are outside the fragment produced by the
parsers' cleaned strings and are not modelled.) -/
def pyFloat? (l : List Char) : Option ℚ :=
  match pyStripL l with
  | '-' :: rest => (parseUnsigned rest).map (fun q => -q)
  | '+' :: rest => parseUnsigned rest
  | rest => parseUnsigned rest

/-- `ExpenseParser.parse_european_amount` (`parsers.py:77-112`).
Strips `€ $ £ -` (the `re.sub(r'[€$£-]', '', ...)`) and whitespace, resolves
the `.`/`,` separator ambiguity exactly as the source does, then parses with
`float()`; `None` (here `none`) on failure. -/
def parseEuropeanAmount (s : String) : Option ℚ :=
  if s = "" then none
  else
    let cleaned := pyStripL (s.data.filter (fun c => !(c = '€' || c = '$' || c = '£' || c = '-')))
    let transformed :=
      if cleaned.contains '.' ∧ cleaned.contains ',' then
        -- both separators present: the later one is the decimal point
        if rfind ',' cleaned > rfind '.' cleaned then
          (cleaned.filter (· ≠ '.')).map (fun c => if c = ',' then '.' else c)
        else
          cleaned.filter (· ≠ ',')
      else if cleaned.contains ',' then
        -- only ',' present: decimal comma iff exactly two digits follow it
        let afterComma := cleaned.drop ((rfind ',' cleaned).toNat + 1)
        if afterComma.length = 2 ∧ afterComma.all Char.isDigit then
          cleaned.map (fun c => if c = ',' then '.' else c)
        else
          cleaned.filter (· ≠ ',')
      else cleaned
    pyFloat? transformed

/-! ## Categorizer, text cleaner, relative-date detector (`parsers.py:20-75`) -/

/-- The ordered category → keyword table of `ExpenseParser.smart_categorize`
(`parsers.py:24-32`); insertion order of the Python dict is significant. -/
def categoryMap : List (String × List String) :=
  [("Restaurants", ["restaurant", "pizzeria", "pompernikkel", "eetcafe"]),
   ("Groceries", ["supermarket", "albert heijn", "jumbo", "lidl", "aldi", "global supermarkt"]),
   ("Household", ["household", "bakkerij", "kiosk", "sapn"]),
   ("Caffeine", ["coffee", "cafe", "koffie", "starbucks", "espresso"]),
   ("Car", ["fuel", "gas", "petrol", "parking", "sanef", "autoroute", "esso", "rouenpalaisauto"]),
   ("Transport", ["transport", "taxi", "uber", "bus", "train"]),
   ("Sport", ["zwembad", "swimming", "gym", "fitness", "sport", "tennis", "voetbal", "hockey"])]

/-- Iteration of `smart_categorize` over the table: first category with a
matching keyword wins. -/
def categorizeAux (textLower : String) : List (String × List String) → String
  | [] => "Other"
  | (cat, kws) :: rest =>
    if kws.any (fun k => pyIn k textLower) then cat else categorizeAux textLower rest

/-- `ExpenseParser.smart_categorize` (`parsers.py:20-37`). -/
def smartCategorize (text : String) : String :=
  categorizeAux (pyLower text) categoryMap

/-- Part of `re.sub(r',PAS\d+', '', ...)`: if `l` starts with `PAS` (any case)
followed by at least one digit, return the remainder after the digits. -/
def stripPasDigits (l : List Char) : Option (List Char) :=
  match l with
  | p :: a :: s :: t =>
    if p.toLower = 'p' ∧ a.toLower = 'a' ∧ s.toLower = 's' then
      let ds := t.takeWhile Char.isDigit
      if ds = [] then none else some (t.drop ds.length)
    else none
  | _ => none

/-- `re.sub(r',PAS\d+', '', description, flags=re.IGNORECASE)`: removes every
(leftmost, non-overlapping) occurrence of `,PAS<digits>`. -/
def subPasAux : ℕ → List Char → List Char
  | 0, l => l
  | _ + 1, [] => []
  | fuel + 1, c :: rest =>
    if c = ',' then
      match stripPasDigits rest with
      | some rest2 => subPasAux fuel rest2
      | none => c :: subPasAux fuel rest
    else c :: subPasAux fuel rest

def subPas (l : List Char) : List Char := subPasAux l.length l

/-- `re.sub(r'^BEA,\s*', '', ..., flags=re.IGNORECASE)`: strips a leading
`BEA,` (any case) together with the following whitespace run. -/
def subBeaPrefix (l : List Char) : List Char :=
  match l with
  | b :: e :: a :: ',' :: rest =>
    if b.toLower = 'b' ∧ e.toLower = 'e' ∧ a.toLower = 'a' then
      rest.dropWhile isPyWs
    else l
  | _ => l

/-- `re.sub(r'\s*,\s*$', '', ...)`: removes a trailing comma together with the
whitespace around it (the single possible match of the `$`-anchored pattern). -/
def subTrailingComma (l : List Char) : List Char :=
  let r := l.reverse.dropWhile isPyWs
  match r with
  | ',' :: r2 => (r2.dropWhile isPyWs).reverse
  | _ => l

/-- Fullmatch of `^(bea|pas\d+)$` (case-insensitive) on one part. -/
def isBeaOrPas (part : List Char) : Bool :=
  let lp := pyLowerL part
  lp = ['b', 'e', 'a'] ||
    (lp.take 3 = ['p', 'a', 's'] && lp.drop 3 ≠ [] && (lp.drop 3).all Char.isDigit)

/-- `ExpenseParser.clean_description` (`parsers.py:39-64`): three noise
`re.sub`s, then the SAPN/Google-Pay recombination, then `strip()`.
`re.split(r'[,\s]+', cleaned)` is modelled by splitting on each separator
character; the empty parts this produces are exactly the parts the source
filters out as falsy. -/
def cleanDescription (s : String) : String :=
  if s = "" then s
  else
    let cleaned := subTrailingComma (subBeaPrefix (subPas s.data))
    let cleaned :=
      if pyIn "sapn" (pyLower ⟨cleaned⟩) ∧ pyIn "google pay" (pyLower ⟨cleaned⟩) then
        let parts := cleaned.splitOnP (fun c => c = ',' || isPyWs c)
        let meaningful := parts.filter (fun p => p ≠ [] && !isBeaOrPas p)
        if meaningful.length > 1 then
          List.intercalate [' '] meaningful
        else cleaned
      else cleaned
    pyStrip ⟨cleaned⟩

/-- `ExpenseParser.detect_relative_date` (`parsers.py:66-75`). -/
def detectRelativeDate (text : String) : Option String :=
  let textLower := pyLower text
  ["today", "yesterday", "vandaag", "gisteren", "this morning", "vanmorgen"].find?
    (fun ind => pyIn ind textLower)

/-! ## Dates: `datetime.strptime`/`strftime` fragments used by the parsers

`datetime.now()` is modelled by an explicit `PyDate` argument threaded through
the parsers.  `strptime` is modelled per format string, following CPython's
`_strptime` regexes: `%d` = 1–2 digits with value 1–31 (not `00`), `%m` = 1–2
digits with value 1–12, `%Y` = exactly four digits, `%A`/`%B`/`%b` =
case-insensitive full/abbreviated English names, a space in the format =
a whitespace run, the whole string must be consumed, and the resulting
calendar date must be valid (else `ValueError`, modelled as `none`).
`strptime` does *not* cross-check a parsed weekday name against the date. -/

structure PyDate where
  year : ℕ
  month : ℕ
  day : ℕ
deriving DecidableEq, Repr

def digitChar (n : ℕ) : Char := Char.ofNat (48 + n)

def natDigitsRev : ℕ → ℕ → List Char
  | 0, _ => []
  | fuel + 1, n => if n < 10 then [digitChar n] else digitChar (n % 10) :: natDigitsRev fuel (n / 10)

/-- Decimal string of a natural number. -/
def natToStr (n : ℕ) : String := ⟨(natDigitsRev (n + 1) n).reverse⟩

/-- Two-digit zero-padded field (`%m`, `%d`). -/
def pad2 (n : ℕ) : String := if n < 10 then "0" ++ natToStr n else natToStr n

/-- Four-digit zero-padded year (`%Y` on output; years in play are ≥ 1000). -/
def pad4 (n : ℕ) : String :=
  if n < 10 then "000" ++ natToStr n
  else if n < 100 then "00" ++ natToStr n
  else if n < 1000 then "0" ++ natToStr n
  else natToStr n

/-- `strftime('%Y-%m-%d')`. -/
def isoOfDate (d : PyDate) : String :=
  pad4 d.year ++ "-" ++ pad2 d.month ++ "-" ++ pad2 d.day

def fullMonthsLower : List String :=
  ["january", "february", "march", "april", "may", "june", "july",
   "august", "september", "october", "november", "december"]

def abbrMonthsLower : List String :=
  ["jan", "feb", "mar", "apr", "may", "jun", "jul", "aug", "sep", "oct", "nov", "dec"]

def weekdaysLower : List String :=
  ["monday", "tuesday", "wednesday", "thursday", "friday", "saturday", "sunday"]

/-- Dutch month names as listed in the fourth ABN AMRO date pattern
(`parsers.py:269`). -/
def dutchMonthsLower : List String :=
  ["januari", "februari", "maart", "april", "mei", "juni", "juli",
   "augustus", "september", "oktober", "november", "december"]

def idxOf1 (s : String) : List String → Option ℕ
  | [] => none
  | h :: t => if h = s then some 1 else (idxOf1 s t).map (· + 1)

/-- `%B`: month number of a full English month name, case-insensitively. -/
def fullMonthIndex? (tok : String) : Option ℕ := idxOf1 (pyLower tok) fullMonthsLower

/-- `%b`: month number of an abbreviated English month name, case-insensitively. -/
def abbrMonthIndex? (tok : String) : Option ℕ := idxOf1 (pyLower tok) abbrMonthsLower

/-- `%A`: is the token a full English weekday name (case-insensitive)? -/
def isWeekdayTok (tok : String) : Bool := weekdaysLower.contains (pyLower tok)

def isLeap (y : ℕ) : Bool := y % 4 = 0 && (y % 100 ≠ 0 || y % 400 = 0)

def daysInMonth (y m : ℕ) : ℕ :=
  if m = 2 then (if isLeap y then 29 else 28)
  else if m = 4 ∨ m = 6 ∨ m = 9 ∨ m = 11 then 30
  else 31

/-- `datetime(y, m, d)` construction: validity check (`ValueError` → `none`). -/
def mkDate (y m d : ℕ) : Option PyDate :=
  if 1 ≤ y ∧ y ≤ 9999 ∧ 1 ≤ m ∧ m ≤ 12 ∧ 1 ≤ d ∧ d ≤ daysInMonth y m then
    some ⟨y, m, d⟩
  else none

/-- `%d` token: 1–2 digits, value 1–31 (CPython `_strptime` day regex). -/
def validDayTok (t : List Char) : Option ℕ :=
  if t ≠ [] ∧ t.length ≤ 2 ∧ t.all Char.isDigit then
    let v := natOfDigits t
    if 1 ≤ v ∧ v ≤ 31 then some v else none
  else none

/-- `%m` token: 1–2 digits, value 1–12. -/
def validMonthNumTok (t : List Char) : Option ℕ :=
  if t ≠ [] ∧ t.length ≤ 2 ∧ t.all Char.isDigit then
    let v := natOfDigits t
    if 1 ≤ v ∧ v ≤ 12 then some v else none
  else none

/-- `%Y` token: exactly four digits. -/
def validYearTok (t : List Char) : Option ℕ :=
  if t.length = 4 ∧ t.all Char.isDigit then some (natOfDigits t) else none

/-- Whitespace-separated tokens of a line. -/
def wsTokens (l : List Char) : List (List Char) :=
  (l.splitOnP isPyWs).filter (· ≠ [])

/-- `datetime.strptime(s, '%d %B %Y')` given the three tokens. -/
def strptimeDMY (dTok mTok yTok : List Char) : Option PyDate :=
  match validDayTok dTok, fullMonthIndex? ⟨mTok⟩, validYearTok yTok with
  | some d, some m, some y => mkDate y m d
  | _, _, _ => none

/-- `datetime.strptime(line, '%A %d %B %Y')` (the ABN AMRO list date anchor,
`parsers.py:363`): full match of the whole line; the weekday name is parsed
but not checked for consistency with the date. -/
def strptimeAnchorL (l : List Char) : Option PyDate :=
  match l with
  | [] => none
  | c :: rest =>
    if isPyWs c ∨ isPyWs ((c :: rest).getLast (by simp)) then none
    else
      match wsTokens (c :: rest) with
      | [w, d, m, y] => if isWeekdayTok ⟨w⟩ then strptimeDMY d m y else none
      | _ => none

def strptimeAnchor (line : String) : Option PyDate :=
  strptimeAnchorL line.data

/-- `datetime.strptime(s, '%d/%m/%Y')` (the Generic parser date,
`parsers.py:421`). -/
def strptimeSlashDate (l : List Char) : Option PyDate :=
  match (l.splitOnP (· = '/')) with
  | [d, m, y] =>
    match validDayTok d, validMonthNumTok m, validYearTok y with
    | some dv, some mv, some yv => mkDate yv mv dv
    | _, _, _ => none
  | _ => none

/-- `datetime.strptime(s, '%Y-%m-%d')` (re-parsing the already formatted
transaction date in `_extract_description`, `parsers.py:325`). -/
def strptimeIso (l : List Char) : Option PyDate :=
  match (l.splitOnP (· = '-')) with
  | [y, m, d] =>
    match validYearTok y, validMonthNumTok m, validDayTok d with
    | some yv, some mv, some dv => mkDate yv mv dv
    | _, _, _ => none
  | _ => none

/-- `date_obj.strftime('%B').lower()`: lower-case full month name. -/
def monthNameLower (m : ℕ) : String :=
  (fullMonthsLower.getD (m - 1) "")

/-! ## Regex scanners

Each Python `re.search`/`re.findall`/`re.match` call is realised by a
per-position matcher plus a left-to-right scan.  `scanFirst` models
`re.search` (leftmost match wins), `scanAll` models `re.findall`
(non-overlapping, resuming after each match). -/

/-- Try the position matcher at every start position, leftmost first
(`re.search`). -/
def scanFirstAux {α : Type} (m : List Char → Option α) : ℕ → List Char → Option α
  | _, [] => m []
  | 0, l => m l
  | fuel + 1, c :: t =>
    match m (c :: t) with
    | some r => some r
    | none => scanFirstAux m fuel t

def scanFirst {α : Type} (m : List Char → Option α) (l : List Char) : Option α :=
  scanFirstAux m l.length l

/-- Collect all non-overlapping matches, resuming after each match
(`re.findall`); the matcher returns the captured group and the rest of the
input after the whole match. -/
def scanAllAux {α : Type} (m : List Char → Option (α × List Char)) :
    ℕ → List Char → List α
  | 0, _ => []
  | _ + 1, [] => []
  | fuel + 1, c :: t =>
    match m (c :: t) with
    | some (g, rest) => g :: scanAllAux m fuel rest
    | none => scanAllAux m fuel t

def scanAll {α : Type} (m : List Char → Option (α × List Char)) (l : List Char) : List α :=
  scanAllAux m l.length l

/-- Case-insensitive literal prefix test (`pat` given in lower case). -/
def ciPrefix (pat : String) (l : List Char) : Bool :=
  pyLowerL (l.take pat.length) = pat.data

/-- Core of the amount patterns: `\d+[<seps>]\d{2}` at the current position —
a maximal digit run, one separator, then two digits.  Returns the matched
characters and the rest of the input.  (Backtracking cannot shorten the `\d+`
run: shortening it would place a digit where the separator is required.) -/
def matchNumSep (seps : List Char) (l : List Char) : Option (List Char × List Char) :=
  let ds := l.takeWhile Char.isDigit
  if ds = [] then none
  else
    match l.drop ds.length with
    | sep :: d1 :: d2 :: rest =>
      if seps.contains sep ∧ d1.isDigit ∧ d2.isDigit then
        some (ds ++ sep :: [d1, d2], rest)
      else none
    | _ => none

/-- Position matcher for `-?€?(\d+[.,]\d{2})` (Revolut first-line amount,
`parsers.py:134`); returns the captured group. -/
def matchRevAmtAt (l : List Char) : Option (List Char) :=
  let l1 := match l with | '-' :: t => t | _ => l
  let l2 := match l1 with | '€' :: t => t | _ => l1
  (matchNumSep ['.', ','] l2).map Prod.fst

/-- Position matcher for `charged by merchant\s+€(\d+[.,]\d{2})`
(case-insensitive, `parsers.py:140`); returns the captured group. -/
def matchChargedAt (l : List Char) : Option (List Char) :=
  if ciPrefix "charged by merchant" l then
    let rest := l.drop 19
    let ws := rest.takeWhile isPyWs
    if ws = [] then none
    else
      match rest.drop ws.length with
      | '€' :: rest2 => (matchNumSep ['.', ','] rest2).map Prod.fst
      | _ => none
  else none

/-- `re.match(r'^\d{2}:\d{2}', line)` (timestamp lines). -/
def isTimePrefix (l : List Char) : Bool :=
  match l with
  | a :: b :: ':' :: c :: d :: _ => a.isDigit && b.isDigit && c.isDigit && d.isDigit
  | _ => false

/-- `re.match(r'^[€\d\s,.-]+$', line)`: the whole line consists of currency
glyphs, digits, whitespace and `,.-`. -/
def isSymbolicLine (l : List Char) : Bool :=
  l ≠ [] && l.all (fun c => c = '€' || c.isDigit || isPyWs c || c = ',' || c = '.' || c = '-')

/-- `re.match(r'^[\d\s€,.+-]+$', line)` (ABN AMRO description filter,
`parsers.py:334`). -/
def isSymbolicLinePlus (l : List Char) : Bool :=
  l ≠ [] && l.all (fun c => c.isDigit || isPyWs c || c = '€' || c = ',' || c = '.' || c = '+' || c = '-')

/-- Position matcher for `(\w+\s+\d+)` (Revolut date fragment,
`parsers.py:161`); returns the word run and the digit run of the group. -/
def matchWordNumAt (l : List Char) : Option (List Char × List Char) :=
  let w := l.takeWhile isWordChar
  if w = [] then none
  else
    let r1 := l.drop w.length
    let s := r1.takeWhile isPyWs
    if s = [] then none
    else
      let d := (r1.drop s.length).takeWhile Char.isDigit
      if d = [] then none else some (w, d)

/-- Position matcher for `Category\s+([\w\s&]+)` (case-insensitive,
`parsers.py:175`); returns the captured group (before `strip()`).  The
character class contains `\s`, so after the mandatory whitespace run the
group greedily extends over word characters, whitespace and `&`; if only
whitespace follows, backtracking leaves a single whitespace character as the
group. -/
def matchCategoryAt (l : List Char) : Option (List Char) :=
  if ciPrefix "category" l then
    let rest := l.drop 8
    let t := rest.takeWhile (fun c => isWordChar c || isPyWs c || c = '&')
    match t with
    | c :: _ =>
      if isPyWs c then
        let w := t.takeWhile isPyWs
        let g := t.drop w.length
        if g ≠ [] then some g
        else if w.length ≥ 2 then some [w.getLastD ' ']
        else none
      else none
    | [] => none
  else none

/-- Position matcher for `€\s*(-?\d+[,.]\d{2})` (ABN AMRO amount pattern 1,
`parsers.py:226`). -/
def matchEuroAmtAt (l : List Char) : Option (List Char × List Char) :=
  match l with
  | '€' :: t =>
    let ws := t.takeWhile isPyWs
    let t2 := t.drop ws.length
    match t2 with
    | '-' :: u =>
      (matchNumSep [',', '.'] u).map (fun p => ('-' :: p.1, p.2))
    | _ => matchNumSep [',', '.'] t2
  | _ => none

/-- Position matcher for `(-?\d+[,.]\d{2})\s*€` (ABN AMRO amount pattern 2,
`parsers.py:227`). -/
def matchAmtEuroAt (l : List Char) : Option (List Char × List Char) :=
  let (neg, t1) :=
    match l with
    | '-' :: u => (true, u)
    | _ => (false, l)
  match matchNumSep [',', '.'] t1 with
  | some (g, rest) =>
    let ws := rest.takeWhile isPyWs
    match rest.drop ws.length with
    | '€' :: rest2 => some ((if neg then '-' :: g else g), rest2)
    | _ => none
  | none => none

/-- Position matcher for `€\s*(-?\d+[,.]?\d*)` (ABN AMRO amount pattern 3,
`parsers.py:228`): digits, then optionally one separator and a possibly
empty digit run. -/
def matchEuroLooseAt (l : List Char) : Option (List Char × List Char) :=
  match l with
  | '€' :: t =>
    let ws := t.takeWhile isPyWs
    let t2 := t.drop ws.length
    let (neg, t3) :=
      match t2 with
      | '-' :: u => (true, u)
      | _ => (false, t2)
    let d := t3.takeWhile Char.isDigit
    if d = [] then none
    else
      match t3.drop d.length with
      | sep :: t5 =>
        if sep = ',' ∨ sep = '.' then
          let e := t5.takeWhile Char.isDigit
          some ((if neg then '-' :: (d ++ sep :: e) else d ++ sep :: e), t5.drop e.length)
        else some ((if neg then '-' :: d else d), sep :: t5)
      | [] => some ((if neg then '-' :: d else d), [])
  | _ => none

/-- Position matcher for `(-?\d+[,.]\d{2})` (ABN AMRO context-line and
fallback amount searches, `parsers.py:244,252`). -/
def matchSignedAmtAt (l : List Char) : Option (List Char × List Char) :=
  match l with
  | '-' :: u => (matchNumSep [',', '.'] u).map (fun p => ('-' :: p.1, p.2))
  | _ => matchNumSep [',', '.'] l

/-- Position matcher for `-\s*\d+,\d{2}` (`SourceIdentifier`'s list-view
count, `services.py:279`). -/
def matchDashAmtAt (l : List Char) : Option (List Char × List Char) :=
  match l with
  | '-' :: t =>
    let ws := t.takeWhile isPyWs
    matchNumSep [','] (t.drop ws.length)
  | _ => none

/-- Tail matcher for `\s+-\s*(\d+,\d{2})$` (the ABN AMRO list transaction
pattern after the lazy description group, `parsers.py:372`); returns the
amount group when the rest of the line matches to its very end. -/
def txnTail (l : List Char) : Option (List Char) :=
  let ws := l.takeWhile isPyWs
  if ws = [] then none
  else
    match l.drop ws.length with
    | '-' :: t =>
      let ws2 := t.takeWhile isPyWs
      let t2 := t.drop ws2.length
      let d := t2.takeWhile Char.isDigit
      if d = [] then none
      else
        match t2.drop d.length with
        | ',' :: d1 :: d2 :: rest =>
          if d1.isDigit ∧ d2.isDigit ∧ rest = [] then some (d ++ ',' :: [d1, d2])
          else none
        | _ => none
    | _ => none

/-- `re.match(r'(.+?)\s+-\s*(\d+,\d{2})$', line)`: the lazy `(.+?)` tries the
shortest description prefix first. -/
def txnMatchGo (acc : List Char) : ℕ → List Char → Option (List Char × List Char)
  | _, [] => none
  | 0, _ => none
  | fuel + 1, c :: t =>
    let acc' := acc ++ [c]
    match txnTail t with
    | some amt => some (acc', amt)
    | none => txnMatchGo acc' fuel t

def txnMatch (line : List Char) : Option (List Char × List Char) :=
  txnMatchGo [] line.length line

/-- Position matcher for `(?:total|totaal|amount|bedrag)[:\s]+(\d+[,.]\d{2})`
(case-insensitive, Generic parser, `parsers.py:399`).  At any one position at
most one alternative can match, so trying them in order is exact. -/
def matchTotalAt (l : List Char) : Option (List Char) :=
  match ["total", "totaal", "amount", "bedrag"].find? (fun k => ciPrefix k l) with
  | some k =>
    let rest := l.drop k.length
    let cls := rest.takeWhile (fun c => c = ':' || isPyWs c)
    if cls = [] then none
    else (matchNumSep [',', '.'] (rest.drop cls.length)).map Prod.fst
  | none => none

/-- `\d{1,2}` at the current position followed by a required non-digit
continuation: the greedy two-digit attempt backtracks to one digit, and a
three-digit run admits no match at this position.  Returns the digits and the
rest, in backtracking priority order. -/
def take12 (l : List Char) : List (List Char × List Char) :=
  match l with
  | a :: b :: t =>
    if a.isDigit ∧ b.isDigit then [([a, b], t), ([a], b :: t)]
    else if a.isDigit then [([a], b :: t)]
    else []
  | [a] => if a.isDigit then [([a], [])] else []
  | [] => []

/-- Position matcher for `(\d{1,2}[sep]\d{1,2}[sep]\d{2,4})` with separator class `.`, `/`, `-` (Generic parser
date, `parsers.py:417`); returns the matched group. -/
def matchGenDateAt (l : List Char) : Option (List Char) :=
  (take12 l).findSome? fun (d1, r1) =>
    match r1 with
    | sep1 :: r2 =>
      if sep1 = '.' ∨ sep1 = '/' ∨ sep1 = '-' then
        (take12 r2).findSome? fun (d2, r3) =>
          match r3 with
          | sep2 :: r4 =>
            if sep2 = '.' ∨ sep2 = '/' ∨ sep2 = '-' then
              let d3 := r4.takeWhile Char.isDigit
              if d3.length ≥ 2 then
                some (d1 ++ sep1 :: d2 ++ sep2 :: d3.take 4)
              else none
            else none
          | [] => none
      else none
    | [] => none

/-- Position matcher for `Execution\s*\n\s*([^\n]+)` (case-insensitive, ABN
AMRO date pattern 1, `parsers.py:266`).  A match needs a whitespace run
containing a newline right after `Execution` and a non-whitespace character
after the run; the group is then the rest of that line.  (When the whitespace
run extends to the end of the text the Python regex can still match with a
whitespace-only group, which `strip()`s to `""` and falls through exactly like
a failed match — and no later `Execution` occurrence can exist inside that
run — so returning `none` here is behaviour-equivalent.) -/
def matchExecAt (l : List Char) : Option (List Char) :=
  if ciPrefix "execution" l then
    let rest := l.drop 9
    let ws := rest.takeWhile isPyWs
    if ws.contains '\n' then
      match (rest.drop ws.length).takeWhile (· ≠ '\n') with
      | [] => none
      | g => some g
    else none
  else none

/-- Position matcher for
`(Monday|...|Sunday)\s+(\d{1,2})\s+(\w+)\s+(\d{4})` (case-insensitive, ABN
AMRO date pattern 2, `parsers.py:267`); returns day digits, month word and
year digits. -/
def matchWeekdayDateAt (l : List Char) : Option (List Char × List Char × List Char) :=
  match weekdaysLower.find? (fun w => ciPrefix w l) with
  | some w =>
    let r1 := l.drop w.length
    let s1 := r1.takeWhile isPyWs
    if s1 = [] then none
    else
      let r2 := r1.drop s1.length
      let d := r2.takeWhile Char.isDigit
      if d = [] ∨ d.length > 2 then none
      else
        let r3 := r2.drop d.length
        let s2 := r3.takeWhile isPyWs
        if s2 = [] then none
        else
          let r4 := r3.drop s2.length
          let mw := r4.takeWhile isWordChar
          if mw = [] then none
          else
            let r5 := r4.drop mw.length
            let s3 := r5.takeWhile isPyWs
            if s3 = [] then none
            else
              let y := (r5.drop s3.length).takeWhile Char.isDigit
              if y.length ≥ 4 then some (d, mw, y.take 4) else none
  | none => none

/-- Position matcher for `(\d{1,2})\s+(<month names>)\s+(\d{4})`
(case-insensitive, ABN AMRO date patterns 3 and 4, `parsers.py:268-269`);
returns day digits, the matched month name and year digits. -/
def matchDayMonthYearAt (months : List String) (l : List Char) :
    Option (List Char × String × List Char) :=
  let d := l.takeWhile Char.isDigit
  if d = [] ∨ d.length > 2 then none
  else
    let r1 := l.drop d.length
    let s1 := r1.takeWhile isPyWs
    if s1 = [] then none
    else
      let r2 := r1.drop s1.length
      match months.find? (fun m => ciPrefix m r2) with
      | some m =>
        let r3 := r2.drop m.length
        let s2 := r3.takeWhile isPyWs
        if s2 = [] then none
        else
          let y := (r3.drop s2.length).takeWhile Char.isDigit
          if y.length ≥ 4 then some (d, m, y.take 4) else none
      | none => none

/-! ## Candidate records and the four parsers (`parsers.py`) -/

/-- One parsed expense candidate — the dict built by a parser.  `amount` is
`Option` because Python may store `None` under the key (`result.get('amount')`
treats a missing key and a stored `None` alike); `person`/`beneficiary` are
never set by any parser and are filled by the orchestrator's `setdefault`. -/
structure Candidate where
  amount : Option ℚ
  currency : String
  date : String
  dateWarning : Option String
  description : String
  category : String
  person : Option String
  beneficiary : Option String
deriving DecidableEq, Repr

/-- `datetime.strptime(f"{group} {now.year}", '%b %d %Y')` for the Revolut
date fragment: the word run must be an abbreviated English month name, the
digit run a valid day, and `str(now.year)` must be the four digits `%Y`
requires. -/
def revolutBDY (w d : List Char) (year : ℕ) : Option PyDate :=
  match abbrMonthIndex? ⟨w⟩, validDayTok d with
  | some m, some dv => if 1000 ≤ year ∧ year ≤ 9999 then mkDate year m dv else none
  | _, _ => none

/-- Revolut amount extraction (`parsers.py:134-143`): the first-line pattern,
else the `charged by merchant` fallback over all lines. -/
def revAmount (line0 : String) (lines : List String) : Option ℚ :=
  match scanFirst matchRevAmtAt line0.data with
  | some g => parseEuropeanAmount ⟨g⟩
  | none =>
    match lines.findSome? (fun line => scanFirst matchChargedAt line.data) with
    | some g => parseEuropeanAmount ⟨g⟩
    | none => none

/-- Revolut merchant extraction from `lines[1:4]` (`parsers.py:146-155`). -/
def revDescription (lines : List String) : Option String :=
  ((lines.drop 1).take 3).findSome? (fun line =>
    let l := (pyStrip line).data
    if isTimePrefix l ∨ pyIn "today" (pyLower ⟨l⟩) then none
    else if l.length > 1 ∧ ¬isSymbolicLine l then some (cleanDescription ⟨l⟩)
    else none)

/-- Revolut default-date computation (`parsers.py:158-172`). -/
def revDefaultDate (now : PyDate) (lines : List String) : String :=
  let dateStr := if lines.length > 3 then String.intercalate " " ((lines.drop 2).take 2) else ""
  match scanFirst matchWordNumAt dateStr.data with
  | some (w, d) =>
    match revolutBDY w d now.year with
    | some dt => isoOfDate dt
    | none => isoOfDate now
  | none => isoOfDate now

/-- `RevolutParser.parse` (`parsers.py:118-187`). -/
def revolutParse (now : PyDate) (text : String) : List Candidate :=
  let lines := pyLines text
  match lines with
  | [] => []
  | line0 :: _ =>
    -- relative-date check (`parsers.py:127-131`)
    let rel := detectRelativeDate text
    let warn : Option String :=
      rel.map (fun ind => "Original showed '" ++ ind ++ "' - please verify date")
    let amount : Option ℚ := revAmount line0 lines
    let description : Option String := revDescription lines
    -- date: empty when relative, else the computed default (`parsers.py:126-172`)
    let date : String := if rel.isSome then "" else revDefaultDate now lines
    -- explicit category label (`parsers.py:175-177`)
    let catSearch : Option String :=
      (scanFirst matchCategoryAt text.data).map (fun g => pyStrip ⟨g⟩)
    -- validation of essential fields (`parsers.py:180-181`)
    if amount = none ∨ amount = some 0 ∨ description = none ∨ description = some "" then []
    else
      let desc := description.getD ""
      let category :=
        match catSearch with
        | some c => c
        | none => smartCategorize desc
      [{ amount := amount, currency := "EUR", date := date, dateWarning := warn,
         description := desc, category := category, person := none, beneficiary := none }]

/-- `ABNAmroSingleParser._extract_amount_robust` (`parsers.py:222-260`). -/
def abnExtractAmount (fullText : List Char) (lines : List String) : Option ℚ :=
  -- Strategy 1: the three currency-glyph patterns with the range filter
  let inRange (a : ℚ) : Bool := decVal 0 1 2 ≤ |a| && |a| ≤ decVal 100000 0 0
  let strat1 :=
    [scanAll matchEuroAmtAt fullText,
     scanAll matchAmtEuroAt fullText,
     scanAll matchEuroLooseAt fullText].findSome? (fun ms =>
      ms.findSome? (fun g =>
        match parseEuropeanAmount ⟨g⟩ with
        | some a => if inRange a then some a else none
        | none => none))
  match strat1 with
  | some a => some a
  | none =>
    -- Strategy 2: lines with contextual words, no range filter
    let strat2 := lines.findSome? (fun line =>
      if ["balance", "charged", "your total"].any (fun ind => pyIn ind (pyLower line)) then
        match scanFirst (fun l => (matchSignedAmtAt l).map Prod.fst) line.data with
        | some g => parseEuropeanAmount ⟨g⟩
        | none => none
      else none)
    match strat2 with
    | some a => some a
    | none =>
      -- Strategy 3: any amount-shaped substring, with the range filter
      (scanAll matchSignedAmtAt fullText).findSome? (fun g =>
        match parseEuropeanAmount ⟨g⟩ with
        | some a => if inRange a then some a else none
        | none => none)

/-- `ABNAmroSingleParser._extract_date` (`parsers.py:262-302`): the four date
patterns in order; a pattern whose regex match fails `strptime` falls through
to the next pattern. -/
def abnExtractDate (fullText : List Char) : Option String :=
  let p1 : Option String :=
    (scanFirst matchExecAt fullText).bind (fun g =>
      let parts := wsTokens (pyStripL g)
      if parts.length ≥ 3 then
        match parts.drop (parts.length - 3) with
        | [d, m, y] => (strptimeDMY d m y).map isoOfDate
        | _ => none
      else none)
  let p2 : Option String :=
    (scanFirst matchWeekdayDateAt fullText).bind (fun t =>
      (strptimeDMY t.1 t.2.1 t.2.2).map isoOfDate)
  let p3 : Option String :=
    (scanFirst (matchDayMonthYearAt fullMonthsLower) fullText).bind (fun t =>
      (strptimeDMY t.1 t.2.1.data t.2.2).map isoOfDate)
  let p4 : Option String :=
    (scanFirst (matchDayMonthYearAt dutchMonthsLower) fullText).bind (fun t =>
      (strptimeDMY t.1 t.2.1.data t.2.2).map isoOfDate)
  p1 <|> p2 <|> p3 <|> p4

/-- The junk phrases of `ABNAmroSingleParser._extract_description`
(`parsers.py:306-310`). -/
def knownJunk : List String :=
  ["payment terminal", "execution", "from account", "balance after payment",
   "description", "google pay", "tikkie payment request", "share this transaction",
   "actions", "your total", "charged by merchant"]

/-- Round-half-even of `p / q` as an integer, for `q > 0`. -/
def rheInt (p q : ℤ) : ℤ :=
  let fl := Int.ediv p q
  let r := Int.emod p q
  if 2 * r < q then fl else if q < 2 * r then fl + 1 else if fl % 2 = 0 then fl else fl + 1

/-- Structural negation on `ℚ` (kernel-reducible, unlike `Rat.neg`). -/
def qNeg (q : ℚ) : ℚ :=
  ⟨-q.num, q.den, q.den_nz, by simpa using q.reduced⟩

/-- `f"{amount:.2f}".replace('.', ',')` (`parsers.py:321`), modelled by exact
round-half-even of the rational to two decimal places. -/
def fmtAmount2Comma (a : ℚ) : List Char :=
  let n := rheInt (a.num * 100) (a.den : ℤ)
  let sign : List Char := if n < 0 then ['-'] else []
  sign ++ (natToStr (n.natAbs / 100)).data ++ ',' :: (pad2 (n.natAbs % 100)).data

/-- `ABNAmroSingleParser._extract_description` (`parsers.py:304-344`). -/
def abnExtractDescription (lines : List String) (amount : Option ℚ)
    (trxDate : Option String) : Option String :=
  let keep (line : String) : Bool :=
    let ll := pyLower line
    !(knownJunk.any (fun j => pyIn j ll)) &&
    !(isTimePrefix line.data) &&
    !(match amount with
      | some a => if a ≠ 0 then isSubL (fmtAmount2Comma a) line.data else false
      | none => false) &&
    !(match trxDate with
      | some ds =>
        match strptimeIso ds.data with
        | some dt => pyIn (monthNameLower dt.month) ll
        | none => false
      | none => false) &&
    (line.data.any isAsciiAlpha && line.length > 2 && !isSymbolicLinePlus line.data)
  (lines.find? keep).map (fun line => pyStrip line)

/-- `ABNAmroSingleParser.parse` (`parsers.py:193-220`). -/
def abnSingleParse (now : PyDate) (text : String) : List Candidate :=
  let lines := pyLines text
  let fullText := String.intercalate "\n" lines
  let amount := abnExtractAmount fullText.data lines
  let trxDate := abnExtractDate fullText.data
  let description := abnExtractDescription lines amount trxDate
  match amount, description with
  | some a, some desc =>
    if desc ≠ "" then
      let cleaned := cleanDescription desc
      [{ amount := some a,
         date := trxDate.getD (isoOfDate now),
         description := cleaned,
         currency := "EUR",
         category := smartCategorize cleaned,
         dateWarning := none, person := none, beneficiary := none }]
    else []
  | _, _ => []

/-- The single date anchor for a whole ABN AMRO list (`parsers.py:357-367`):
the first line parsing as `'%A %d %B %Y'`, else today. -/
def abnListDate (now : PyDate) (lines : List String) : String :=
  match lines.findSome? (fun line => strptimeAnchor line) with
  | some dt => isoOfDate dt
  | none => isoOfDate now

/-- One line of the ABN AMRO list parser (`parsers.py:370-388`): the
transaction pattern, the weekday-name exclusion, and candidate construction. -/
def abnListItem (currentDate : String) (line : String) : Option Candidate :=
  match txnMatch line.data with
  | some (descG, amtG) =>
    let description := pyStrip ⟨descG⟩
    let amount := parseEuropeanAmount ⟨amtG⟩
    -- avoid matching the date line as a transaction (`parsers.py:379-380`)
    if !(weekdaysLower.contains (pyLower description)) then
      match amount with
      | some a =>
        let cleaned := cleanDescription description
        some { description := cleaned, amount := some a, date := currentDate,
               currency := "EUR", category := smartCategorize cleaned,
               dateWarning := none, person := none, beneficiary := none }
      | none => none
    else none
  | none => none

/-- `ABNAmroListParser.parse` (`parsers.py:350-390`). -/
def abnListParse (now : PyDate) (text : String) : List Candidate :=
  let lines := pyLines text
  match lines with
  | [] => []
  | _ => lines.filterMap (abnListItem (abnListDate now lines))

/-- Generic amount extraction (`parsers.py:398-410`): the labelled total,
else the maximum of all amount-shaped substrings, else `0.0`. -/
def genAmount (text : String) : Option ℚ :=
  match scanFirst matchTotalAt text.data with
  | some g => parseEuropeanAmount ⟨g⟩
  | none =>
    match scanAll (matchNumSep ['.', ',']) text.data with
    | [] => some 0
    | a :: as =>
      match (a :: as).filterMap (fun g => parseEuropeanAmount ⟨g⟩) with
      | [] => some 0
      | v :: vs => some (vs.foldl max v)

/-- Generic date extraction (`parsers.py:416-424`). -/
def genDate (now : PyDate) (text : String) : String :=
  match scanFirst matchGenDateAt text.data with
  | some g =>
    match strptimeSlashDate (g.map (fun c => if c = '-' then '/' else c)) with
    | some dt => isoOfDate dt
    | none => isoOfDate now
  | none => isoOfDate now

/-- `GenericParser.parse` (`parsers.py:396-437`). -/
def genericParse (now : PyDate) (text : String) : List Candidate :=
  let amount : Option ℚ := genAmount text
  let lines := pyLines text
  let description := match lines with | [] => "Scanned Expense" | l :: _ => l
  let currentDate := genDate now text
  -- `if amount == 0.0 and description == 'Scanned Expense'` (`parsers.py:427`)
  if amount = some 0 ∧ description = "Scanned Expense" then []
  else
    let cleaned := cleanDescription description
    [{ amount := amount, currency := "EUR", date := currentDate,
       description := cleaned, category := smartCategorize cleaned,
       dateWarning := none, person := none, beneficiary := none }]

/-! ## Source identification and the orchestrator (`ocr_processor.py`) -/

/-- Python exceptions relevant to the pipeline. -/
inductive PyExn where
  | nameError
deriving DecidableEq, Repr

instance {α : Type} [DecidableEq α] : DecidableEq (Except PyExn α) := fun a b =>
  match a, b with
  | .error x, .error y =>
    if h : x = y then isTrue (by rw [h]) else isFalse (fun hc => h (by injection hc))
  | .ok x, .ok y =>
    if h : x = y then isTrue (by rw [h]) else isFalse (fun hc => h (by injection hc))
  | .error _, .ok _ => isFalse (fun hc => Except.noConfusion hc)
  | .ok _, .error _ => isFalse (fun hc => Except.noConfusion hc)

def abnIndicators : List String :=
  ["abn amro", "payment terminal", "execution", "tikkie payment request", "nl50 abna"]

def revolutFingerprint (tl : String) : Bool :=
  pyIn "split bill" tl && (pyIn "points earned" tl || pyIn "kiosk" tl || pyIn "revolut" tl)

/-- `SourceIdentifier.identify_source` as written in `services.py:253-287`,
where the module imports `re` and the whole procedure runs. -/
def identifySource (text : String) : String :=
  let tl := pyLower text
  if revolutFingerprint tl then "Revolut"
  else if abnIndicators.any (fun i => pyIn i tl) then
    if pyIn "execution" tl ∧ pyIn "from account" tl then "ABN_AMRO_SINGLE"
    else if (scanAll matchDashAmtAt tl.data).length > 1 then "ABN_AMRO_LIST"
    else "ABN_AMRO_SINGLE"
  else "Generic"

/-- `SourceIdentifier.identify_source` as wired into the application
(`ocr_processor.py:49-79`): that module never imports `re`, so reaching the
`re.findall(r'-\s*\d+,\d{2}', text_lower)` line raises `NameError`. -/
def identifySourceApp (text : String) : Except PyExn String :=
  let tl := pyLower text
  if revolutFingerprint tl then .ok "Revolut"
  else if abnIndicators.any (fun i => pyIn i tl) then
    if pyIn "execution" tl ∧ pyIn "from account" tl then .ok "ABN_AMRO_SINGLE"
    else .error .nameError
  else .ok "Generic"

/-- An enriched candidate as returned by `process_image`
(`ocr_processor.py:115-123`). -/
structure Enriched where
  amount : Option ℚ
  currency : String
  date : String
  dateWarning : Option String
  description : String
  category : String
  fxRate : ℚ
  amountEur : ℚ
  person : String
  beneficiary : String
deriving DecidableEq, Repr

/-- `_get_fx_rate` (`ocr_processor.py:131-175`): `1.0` for EUR, otherwise the
external cache/API/fallback chain, modelled as an oracle `fx`. -/
def getFxRate (fx : String → Option String → ℚ) (currency : String)
    (date : Option String) : ℚ :=
  if currency = "EUR" then 1 else fx currency date

/-- `n / 100` as a rational, built in reduced form. -/
def ratOfCent (n : ℤ) : ℚ :=
  match n with
  | .ofNat m => decVal 0 m 2
  | .negSucc m => qNeg (decVal 0 (m + 1) 2)

/-- `round(a / r, 2)` (Python's banker's rounding), computed on numerators and
denominators so that it evaluates by kernel reduction. -/
def round2div (a r : ℚ) : ℚ :=
  let p := a.num * (r.den : ℤ) * 100
  let q := (a.den : ℤ) * r.num
  if q < 0 then ratOfCent (rheInt (-p) (-q)) else ratOfCent (rheInt p q)

/-- Python truthiness of the `amount` value (`None` and `0.0` are falsy). -/
def truthyAmount : Option ℚ → Bool
  | some a => a ≠ 0
  | none => false

/-- The enrichment loop body of `process_image` (`ocr_processor.py:117-123`):
fx-rate resolution, `amount_eur`, and the `person`/`beneficiary` defaults. -/
def enrich (fx : String → Option String → ℚ) (c : Candidate) : Enriched :=
  let r := getFxRate fx c.currency (some c.date)
  { amount := c.amount, currency := c.currency, date := c.date,
    dateWarning := c.dateWarning, description := c.description,
    category := c.category,
    fxRate := r,
    amountEur :=
      if r ≠ 0 ∧ truthyAmount c.amount then
        round2div (c.amount.getD 0) r
      else 0,
    person := c.person.getD "Közös",
    beneficiary := c.beneficiary.getD "" }

/-- `self.parsers.get(source, self.parsers['Generic'])` plus dispatch
(`ocr_processor.py:92-113`). -/
def parseBySource (source : String) (now : PyDate) (text : String) : List Candidate :=
  if source = "Revolut" then revolutParse now text
  else if source = "ABN_AMRO_SINGLE" then abnSingleParse now text
  else if source = "ABN_AMRO_LIST" then abnListParse now text
  else genericParse now text

/-- The body of `OCRProcessingService.process_image` after OCR text
extraction (`ocr_processor.py:99-129`), as an `Except`: the only raising
step of the embedded pipeline is `identify_source`'s `NameError`. -/
def pipelineE (fx : String → Option String → ℚ) (now : PyDate)
    (ocrText : String) : Except PyExn (List Enriched) :=
  match identifySourceApp ocrText with
  | .error e => .error e
  | .ok source => .ok ((parseBySource source now ocrText).map (enrich fx))

/-- `OCRProcessingService.process_image` (`ocr_processor.py:99-129`), taking
the OCR collaborator's text output as input: empty/whitespace-only text short-
circuits to `[]`, and the top-level `except Exception` converts any pipeline
exception to `[]`. -/
def processImage (fx : String → Option String → ℚ) (now : PyDate)
    (ocrText : String) : List Enriched :=
  if pyStrip ocrText = "" then []
  else
    match pipelineE fx now ocrText with
    | .error _ => []
    | .ok results => results

/-- The Categorizer as the spec words it: the first category in the fixed
table order whose keyword set has a (case-insensitive substring) match, else
`"Other"`. -/
def specCategorize (text : String) : String :=
  ((categoryMap.find? (fun p => p.2.any (fun k => pyIn k (pyLower text)))).map
    Prod.fst).getD "Other"

/-- Round-half-even of a rational, the rounding mode of Python's `round`. -/
def pyRoundHalfEven (x : ℚ) : ℤ :=
  if Int.fract x < 1 / 2 then ⌊x⌋
  else if 1 / 2 < Int.fract x then ⌊x⌋ + 1
  else if ⌊x⌋ % 2 = 0 then ⌊x⌋ else ⌊x⌋ + 1

/-- Python's `round(x, 2)` on exact decimal rationals. -/
def pyRound2 (x : ℚ) : ℚ := (pyRoundHalfEven (x * 100) : ℚ) / 100

/-! ## Concrete fixtures used by the claim theorems and witnesses -/

/-- A fixed "today" for the concrete instances. -/
def today0 : PyDate := ⟨2025, 1, 15⟩

/-- A concrete FX oracle returning `1.08` for every non-EUR lookup. -/
def fxUSD : String → Option String → ℚ := fun _ _ => decVal 1 8 2

/-- A candidate with `amount=10.0`, `currency="USD"` (spec §8's enrichment
example). -/
def candUSD : Candidate :=
  { amount := some (decVal 10 0 0), currency := "USD", date := "2025-01-15",
    dateWarning := none, description := "x", category := "Other",
    person := none, beneficiary := none }

/-- The candidate `ABNAmroSingleParser.parse` emits on the counterexample
text `"BEA,\nBalance 0,00"`: amount `0.0` and empty cleaned description. -/
def beaCand : Candidate :=
  { amount := some 0, currency := "EUR", date := "2025-01-15", dateWarning := none,
    description := "", category := "Other", person := none, beneficiary := none }

/-- The example list text of spec §8. -/
def listText : String := "Thursday 29 May 2025\nCoffee Shop - 4,50\nSupermarket - 23,10"

def coffeeCand : Candidate :=
  { amount := some (decVal 4 50 2), currency := "EUR", date := "2025-05-29",
    dateWarning := none, description := "Coffee Shop", category := "Caffeine",
    person := none, beneficiary := none }

def supermarketCand : Candidate :=
  { amount := some (decVal 23 10 2), currency := "EUR", date := "2025-05-29",
    dateWarning := none, description := "Supermarket", category := "Groceries",
    person := none, beneficiary := none }

/-- A Revolut text with a relative-date phrase. -/
def todayText : String := "€5,00 today\nMyShop"

def todayCand : Candidate :=
  { amount := some (decVal 5 0 2), currency := "EUR", date := "",
    dateWarning := some "Original showed 'today' - please verify date",
    description := "MyShop", category := "Other", person := none, beneficiary := none }

/-- The candidate `GenericParser.parse` emits on `"0,00"`. -/
def zeroCand : Candidate :=
  { amount := some 0, currency := "EUR", date := "2025-01-15", dateWarning := none,
    description := "0,00", category := "Other", person := none, beneficiary := none }

/-- The enriched record `process_image` produces for `"Total: 15,90"` with any
FX oracle. -/
def totalEnriched : Enriched :=
  { amount := some (decVal 15 90 2), currency := "EUR", date := "2025-01-15",
    dateWarning := none, description := "Total: 15,90", category := "Other",
    fxRate := 1, amountEur := decVal 0 1590 2, person := "Közös", beneficiary := "" }

/-! ## Toolbox lemmas -/

theorem decVal_eq (i f k : ℕ) : decVal i f k = (i : ℚ) + (f : ℚ) / 10 ^ k := by
  have hd : (0:ℕ) < 10 ^ k := by positivity
  have hgn : 0 < Nat.gcd (i * 10 ^ k + f) (10 ^ k) :=
    Nat.gcd_pos_of_pos_right _ hd
  have hg : ((Nat.gcd (i * 10 ^ k + f) (10 ^ k) : ℕ) : ℚ) ≠ 0 := by
    exact_mod_cast hgn.ne'
  have h1 : Nat.gcd (i * 10 ^ k + f) (10 ^ k) ∣ i * 10 ^ k + f := Nat.gcd_dvd_left _ _
  have h2 : Nat.gcd (i * 10 ^ k + f) (10 ^ k) ∣ 10 ^ k := Nat.gcd_dvd_right _ _
  have hdq : ((10:ℚ) ^ k) ≠ 0 := by positivity
  have hd2 : (((10 : ℕ) ^ k : ℕ) : ℚ) ≠ 0 := by
    exact_mod_cast hd.ne'
  unfold decVal
  rw [Rat.mk'_eq_divInt, Rat.divInt_eq_div]
  simp only [Int.cast_natCast]
  rw [Nat.cast_div h1 hg, Nat.cast_div h2 hg]
  rw [div_div_div_cancel_right₀ hg]
  push_cast
  field_simp

theorem decVal_nonneg (i f k : ℕ) : 0 ≤ decVal i f k := by
  rw [decVal_eq]; positivity

theorem decVal_pos (i f k : ℕ) (h : 0 < i ∨ 0 < f) : 0 < decVal i f k := by
  rw [decVal_eq]
  rcases h with h | h
  · have h1 : (1:ℚ) ≤ i := by exact_mod_cast h
    have h2 : (0:ℚ) ≤ (f : ℚ) / 10 ^ k := by positivity
    linarith
  · have h1 : (0:ℚ) < (f : ℚ) / 10 ^ k := by positivity
    have h2 : (0:ℚ) ≤ (i : ℚ) := by positivity
    linarith

theorem decVal_eq_zero_iff (i f k : ℕ) : decVal i f k = 0 ↔ i = 0 ∧ f = 0 := by
  constructor
  · intro h
    by_contra hc
    have hif : 0 < i ∨ 0 < f := by omega
    exact absurd h (ne_of_gt (decVal_pos i f k hif))
  · rintro ⟨rfl, rfl⟩
    simp [decVal_eq]

theorem qNeg_eq (q : ℚ) : qNeg q = -q := by
  have : (-q).num = -q.num ∧ (-q).den = q.den := ⟨Rat.neg_num q, Rat.neg_den q⟩
  cases q with
  | mk' n d nz red =>
    apply Rat.ext
    · simp [qNeg, this.1]
    · simp [qNeg, this.2]

theorem findSome?_exists {α β : Type} {f : α → Option β} :
    ∀ {l : List α} {b : β}, l.findSome? f = some b → ∃ a ∈ l, f a = some b := by
  intro l
  induction l with
  | nil => intro b h; simp [List.findSome?] at h
  | cons x xs ih =>
    intro b h
    rw [List.findSome?_cons] at h
    cases hfx : f x with
    | some y => rw [hfx] at h; exact ⟨x, by simp, by simpa [hfx] using h⟩
    | none =>
      rw [hfx] at h
      obtain ⟨a, ha, hfa⟩ := ih h
      exact ⟨a, by simp [ha], hfa⟩

theorem mem_pyStripL {c : Char} {l : List Char} (h : c ∈ pyStripL l) : c ∈ l := by
  unfold pyStripL at h
  rw [List.mem_reverse] at h
  have h1 := (List.dropWhile_sublist isPyWs).mem h
  rw [List.mem_reverse] at h1
  exact (List.dropWhile_sublist isPyWs).mem h1

theorem pyStripL_eq_self {l : List Char} (h : ∀ c ∈ l, isPyWs c = false) :
    pyStripL l = l := by
  unfold pyStripL
  have h1 : l.dropWhile isPyWs = l := by
    cases l with
    | nil => rfl
    | cons c t => simp [List.dropWhile_cons, h c (by simp)]
  rw [h1]
  have h2 : l.reverse.dropWhile isPyWs = l.reverse := by
    cases hr : l.reverse with
    | nil => rfl
    | cons c t =>
      have hc : isPyWs c = false := h c (by rw [← List.mem_reverse, hr]; simp)
      simp [List.dropWhile_cons, hc]
  rw [h2, List.reverse_reverse]

theorem takeWhile_append_of_all {p : Char → Bool} :
    ∀ {xs : List Char} (ys : List Char), (∀ a ∈ xs, p a) →
      (xs ++ ys).takeWhile p = xs ++ ys.takeWhile p := by
  intro xs
  induction xs with
  | nil => intro ys _; rfl
  | cons x t ih =>
    intro ys h
    rw [List.cons_append, List.takeWhile_cons]
    simp only [h x (by simp), if_true, List.cons_append, List.cons.injEq, true_and]
    exact ih ys (fun a ha => h a (by simp [ha]))

theorem parseUnsigned_nonneg {l : List Char} {q : ℚ}
    (h : parseUnsigned l = some q) : 0 ≤ q := by
  unfold parseUnsigned at h
  dsimp only at h
  split at h
  · split at h
    · exact absurd h (by simp)
    · rw [Option.some_inj] at h; rw [← h]; exact decVal_nonneg _ _ _
  · split at h
    · exact absurd h (by simp)
    · split at h
      · exact absurd h (by simp)
      · rw [Option.some_inj] at h; rw [← h]; exact decVal_nonneg _ _ _
  · exact absurd h (by simp)

theorem pyFloat?_nonneg {l : List Char} {q : ℚ}
    (hm : '-' ∉ l) (h : pyFloat? l = some q) : 0 ≤ q := by
  unfold pyFloat? at h
  split at h
  case _ rest heq =>
    exfalso
    exact hm (mem_pyStripL (by rw [heq]; simp))
  case _ rest heq => exact parseUnsigned_nonneg h
  case _ rest h1 h2 => exact parseUnsigned_nonneg h

/-- The minus sign is stripped before parsing, so `parse_european_amount`
never returns a negative value. -/
theorem parseEuropeanAmount_nonneg {s : String} {q : ℚ}
    (h : parseEuropeanAmount s = some q) : 0 ≤ q := by
  unfold parseEuropeanAmount at h
  split at h
  · exact absurd h (by simp)
  · set cleaned := pyStripL (s.data.filter (fun c => !(c = '€' || c = '$' || c = '£' || c = '-'))) with hc
    have hclean : '-' ∉ cleaned := by
      intro hmem
      have h1 := mem_pyStripL hmem
      rw [List.mem_filter] at h1
      simp at h1
    have hmap : ∀ (l' : List Char), '-' ∉ l' →
        '-' ∉ l'.map (fun c => if c = ',' then '.' else c) := by
      intro l' hl' hmem
      rw [List.mem_map] at hmem
      obtain ⟨a, ha, hb⟩ := hmem
      by_cases hac : a = ','
      · simp [hac] at hb
      · simp only [if_neg hac] at hb
        exact hl' (hb ▸ ha)
    have hfil : ∀ (p : Char → Bool), '-' ∉ cleaned.filter p := by
      intro p hmem
      exact hclean (List.mem_filter.mp hmem).1
    apply pyFloat?_nonneg _ h
    dsimp only
    intro hmem
    split at hmem
    · split at hmem
      · exact hmap _ (hfil _) hmem
      · exact hfil _ hmem
    · split at hmem
      · split at hmem
        · exact hmap _ hclean hmem
        · exact hfil _ hmem
      · exact hclean hmem

theorem scanFirstAux_exists {α : Type} {m : List Char → Option α} :
    ∀ {fuel : ℕ} {l : List Char} {r : α},
      scanFirstAux m fuel l = some r → ∃ l', m l' = some r := by
  intro fuel
  induction fuel with
  | zero =>
    intro l r h
    cases l with
    | nil => exact ⟨[], h⟩
    | cons c t => exact ⟨c :: t, h⟩
  | succ n ih =>
    intro l r h
    cases l with
    | nil => exact ⟨[], h⟩
    | cons c t =>
      rw [scanFirstAux] at h
      cases hm : m (c :: t) with
      | some x =>
        rw [hm] at h
        simp only [Option.some_inj] at h
        exact ⟨c :: t, by rw [hm, h]⟩
      | none =>
        rw [hm] at h
        exact ih h

theorem scanFirst_exists {α : Type} {m : List Char → Option α} {l : List Char} {r : α}
    (h : scanFirst m l = some r) : ∃ l', m l' = some r :=
  scanFirstAux_exists h

theorem scanAllAux_exists {α : Type} {m : List Char → Option (α × List Char)} :
    ∀ {fuel : ℕ} {l : List Char} {g : α},
      g ∈ scanAllAux m fuel l → ∃ l' rest, m l' = some (g, rest) := by
  intro fuel
  induction fuel with
  | zero => intro l g h; simp [scanAllAux] at h
  | succ n ih =>
    intro l g h
    cases l with
    | nil => simp [scanAllAux] at h
    | cons c t =>
      rw [scanAllAux] at h
      cases hm : m (c :: t) with
      | some p =>
        rw [hm] at h
        rcases List.mem_cons.mp h with h1 | h1
        · exact ⟨c :: t, p.2, by rw [hm, h1]⟩
        · exact ih h1
      | none => rw [hm] at h; exact ih h

theorem scanAll_exists {α : Type} {m : List Char → Option (α × List Char)} {l : List Char}
    {g : α} (h : g ∈ scanAll m l) : ∃ l' rest, m l' = some (g, rest) :=
  scanAllAux_exists h

theorem matchNumSep_shape {seps : List Char} {l g rest : List Char}
    (h : matchNumSep seps l = some (g, rest)) :
    ∃ ds sep d1 d2, g = ds ++ sep :: [d1, d2] ∧ ds ≠ [] ∧ (∀ c ∈ ds, c.isDigit) ∧
      sep ∈ seps ∧ d1.isDigit ∧ d2.isDigit := by
  unfold matchNumSep at h
  dsimp only at h
  split at h
  · exact absurd h (by simp)
  · split at h
    case _ hds sep d1 d2 rest' heq =>
      split at h
      case isTrue hcond =>
        rw [Option.some_inj, Prod.mk.injEq] at h
        refine ⟨l.takeWhile Char.isDigit, sep, d1, d2, h.1.symm, by assumption, ?_, ?_, ?_, ?_⟩
        · intro c hc; exact List.mem_takeWhile_imp hc
        · simpa using hcond.1
        · exact hcond.2.1
        · exact hcond.2.2
      case isFalse => exact absurd h (by simp)
    · exact absurd h (by simp)

/-- A digit character differs from any non-digit character. -/
theorem digit_ne {c x : Char} (h : c.isDigit) (hx : x.isDigit = false) : c ≠ x := by
  intro hc
  rw [hc] at h
  rw [h] at hx
  exact absurd hx (by simp)

/-- A digit character is not whitespace. -/
theorem digit_not_ws {c : Char} (h : c.isDigit) : isPyWs c = false := by
  by_contra hws
  rw [Bool.not_eq_false] at hws
  unfold isPyWs at hws
  simp only [Bool.or_eq_true, decide_eq_true_eq] at hws
  rcases hws with ((((h1 | h1) | h1) | h1) | h1) | h1 <;>
    (subst h1; exact absurd h (by decide))

theorem rfind_eq_neg_one_of_not_mem {c : Char} : ∀ {l : List Char}, c ∉ l → rfind c l = -1 := by
  intro l
  induction l with
  | nil => intro _; rfl
  | cons x xs ih =>
    intro h
    rw [rfind]
    have hx : x ≠ c := fun hc => h (by simp [hc])
    have hxs : c ∉ xs := fun hc => h (by simp [hc])
    rw [ih hxs]
    simp [hx]

theorem rfind_append_unique {c : Char} :
    ∀ (a : List Char) (b : List Char), c ∉ b → rfind c (a ++ c :: b) = a.length := by
  intro a
  induction a with
  | nil =>
    intro b hb
    rw [List.nil_append, rfind, rfind_eq_neg_one_of_not_mem hb]
    simp
  | cons x xs ih =>
    intro b hb
    rw [List.cons_append, rfind]
    have hr := ih b hb
    rw [hr]
    have : (0:ℤ) ≤ xs.length := by positivity
    simp only [ge_iff_le, this, if_pos]
    simp

theorem pyFloat_digits {ds : List Char} {d1 d2 : Char}
    (hne : ds ≠ []) (hall : ∀ c ∈ ds, c.isDigit) (h1 : d1.isDigit) (h2 : d2.isDigit) :
    pyFloat? (ds ++ '.' :: [d1, d2]) =
      some (decVal (natOfDigits ds) (natOfDigits [d1, d2]) 2) := by
  have hws : ∀ c ∈ ds ++ '.' :: [d1, d2], isPyWs c = false := by
    intro c hc
    rcases List.mem_append.mp hc with hc | hc
    · exact digit_not_ws (hall c hc)
    · rcases List.mem_cons.mp hc with rfl | hc
      · decide
      · rcases List.mem_cons.mp hc with rfl | hc
        · exact digit_not_ws h1
        · rcases List.mem_cons.mp hc with rfl | hc
          · exact digit_not_ws h2
          · simp at hc
  have hPU : parseUnsigned (ds ++ '.' :: [d1, d2]) =
      some (decVal (natOfDigits ds) (natOfDigits [d1, d2]) 2) := by
    unfold parseUnsigned
    dsimp only
    have htake : (ds ++ '.' :: [d1, d2]).takeWhile Char.isDigit = ds := by
      rw [takeWhile_append_of_all _ hall, List.takeWhile_cons]
      simp
    rw [htake, List.drop_left]
    have htake2 : [d1, d2].takeWhile Char.isDigit = [d1, d2] := by
      simp [List.takeWhile_cons, h1, h2]
    split
    case _ heq => exact absurd heq (by simp)
    case _ rest2 heq =>
      have hrest : rest2 = [d1, d2] := by
        injection heq with _ h
        exact h.symm
      subst hrest
      rw [htake2]
      simp [hne]
    case _ hne1 hne2 =>
      exact absurd rfl (hne2 [d1, d2])
  cases ds with
  | nil => exact absurd rfl hne
  | cons c t =>
    have hc : c.isDigit := hall c (by simp)
    unfold pyFloat?
    rw [pyStripL_eq_self hws]
    split
    case _ rest heq =>
      exfalso
      rw [List.cons_append] at heq
      injection heq with hc1
      exact absurd hc1 (digit_ne hc (by decide))
    case _ rest heq =>
      exfalso
      rw [List.cons_append] at heq
      injection heq with hc1
      exact absurd hc1 (digit_ne hc (by decide))
    case _ => exact hPU

/-- Every string of shape `digits ++ sep ++ two digits` (the groups captured
by the `\d+[.,]\d{2}` patterns) parses successfully, to its decimal value. -/
theorem parse_of_shape {ds : List Char} {sep d1 d2 : Char}
    (hne : ds ≠ []) (hall : ∀ c ∈ ds, c.isDigit) (hsep : sep = ',' ∨ sep = '.')
    (h1 : d1.isDigit) (h2 : d2.isDigit) :
    parseEuropeanAmount ⟨ds ++ sep :: [d1, d2]⟩ =
      some (decVal (natOfDigits ds) (natOfDigits [d1, d2]) 2) := by
  have hsepd : sep.isDigit = false := by rcases hsep with rfl | rfl <;> decide
  have hsepws : isPyWs sep = false := by rcases hsep with rfl | rfl <;> decide
  have hs : (⟨ds ++ sep :: [d1, d2]⟩ : String) ≠ "" := by
    intro hcon
    have hdata : ds ++ sep :: [d1, d2] = ("" : String).data := congrArg String.data hcon
    rw [show ("" : String).data = [] from rfl] at hdata
    cases ds <;> simp at hdata
  have hmem : ∀ c ∈ ds ++ sep :: [d1, d2], c.isDigit ∨ c = sep := by
    intro c hcm
    rcases List.mem_append.mp hcm with hcm | hcm
    · exact Or.inl (hall c hcm)
    · rcases List.mem_cons.mp hcm with rfl | hcm
      · exact Or.inr rfl
      · rcases List.mem_cons.mp hcm with rfl | hcm
        · exact Or.inl h1
        · rcases List.mem_cons.mp hcm with rfl | hcm
          · exact Or.inl h2
          · simp at hcm
  have hfilter : (ds ++ sep :: [d1, d2]).filter
      (fun c => !(c = '€' || c = '$' || c = '£' || c = '-')) = ds ++ sep :: [d1, d2] := by
    apply List.filter_eq_self.mpr
    intro c hcm
    rcases hmem c hcm with hd | rfl
    · have e1 := digit_ne hd (show Char.isDigit '€' = false by decide)
      have e2 := digit_ne hd (show Char.isDigit '$' = false by decide)
      have e3 := digit_ne hd (show Char.isDigit '£' = false by decide)
      have e4 := digit_ne hd (show Char.isDigit '-' = false by decide)
      simp [e1, e2, e3, e4]
    · rcases hsep with rfl | rfl <;> decide
  have hws : ∀ c ∈ ds ++ sep :: [d1, d2], isPyWs c = false := by
    intro c hcm
    rcases hmem c hcm with hd | rfl
    · exact digit_not_ws hd
    · exact hsepws
  unfold parseEuropeanAmount
  rw [if_neg hs]
  dsimp only
  rw [hfilter, pyStripL_eq_self hws]
  rcases hsep with rfl | rfl
  · -- decimal comma: `D,dd` is rewritten to `D.dd`
    have hnodot : '.' ∉ ds ++ ',' :: [d1, d2] := by
      intro hcm
      rcases hmem '.' hcm with hd | hd
      · exact absurd hd (by decide)
      · exact absurd hd (by decide)
    have hcond1 : ¬((ds ++ ',' :: [d1, d2]).contains '.' = true ∧
        (ds ++ ',' :: [d1, d2]).contains ',' = true) := by
      intro hcontr
      exact hnodot (List.elem_iff.mp hcontr.1)
    rw [if_neg hcond1]
    have hcomma : (ds ++ ',' :: [d1, d2]).contains ',' = true := by
      rw [List.elem_iff]
      simp
    rw [if_pos hcomma]
    have hnocomma2 : ',' ∉ ([d1, d2] : List Char) := by
      intro hcm
      rcases List.mem_cons.mp hcm with hx | hx
      · exact absurd hx.symm (digit_ne h1 (by decide))
      · rcases List.mem_cons.mp hx with hy | hy
        · exact absurd hy.symm (digit_ne h2 (by decide))
        · simp at hy
    have hrf : rfind ',' (ds ++ ',' :: [d1, d2]) = ds.length :=
      rfind_append_unique ds [d1, d2] hnocomma2
    rw [hrf]
    have hdrop : (ds ++ ',' :: [d1, d2]).drop ((ds.length : ℤ).toNat + 1) = [d1, d2] := by
      rw [Int.toNat_natCast]
      rw [show ds ++ ',' :: [d1, d2] = (ds ++ [',']) ++ [d1, d2] by simp]
      rw [show ds.length + 1 = (ds ++ [',']).length by simp]
      exact List.drop_left _ _
    rw [hdrop]
    have hlen : ([d1, d2] : List Char).length = 2 ∧ ([d1, d2] : List Char).all Char.isDigit = true := by
      simp [h1, h2]
    rw [if_pos hlen]
    have hmap : (ds ++ ',' :: [d1, d2]).map (fun c => if c = ',' then '.' else c) =
        ds ++ '.' :: [d1, d2] := by
      rw [List.map_append]
      have hds : ds.map (fun c => if c = ',' then '.' else c) = ds := by
        have hid : ds.map (fun c => if c = ',' then '.' else c) = ds.map id := by
          apply List.map_congr_left
          intro a ha
          have := digit_ne (hall a ha) (show Char.isDigit ',' = false by decide)
          simp [this]
        rw [hid, List.map_id]
      rw [hds]
      have hd1 : d1 ≠ ',' := digit_ne h1 (by decide)
      have hd2 : d2 ≠ ',' := digit_ne h2 (by decide)
      simp [hd1, hd2]
    rw [hmap]
    exact pyFloat_digits hne hall h1 h2
  · -- decimal dot: no comma anywhere, the string is parsed as-is
    have hnocomma : ',' ∉ ds ++ '.' :: [d1, d2] := by
      intro hcm
      rcases hmem ',' hcm with hd | hd
      · exact absurd hd (by decide)
      · exact absurd hd (by decide)
    have hcond1 : ¬((ds ++ '.' :: [d1, d2]).contains '.' = true ∧
        (ds ++ '.' :: [d1, d2]).contains ',' = true) := by
      intro hcontr
      exact hnocomma (List.elem_iff.mp hcontr.2)
    rw [if_neg hcond1]
    have hcond2 : ¬((ds ++ '.' :: [d1, d2]).contains ',' = true) := by
      intro hcontr
      exact hnocomma (List.elem_iff.mp hcontr)
    rw [if_neg hcond2]
    exact pyFloat_digits hne hall h1 h2

/-! ## Soundness facts about the extracted components -/

theorem foldl_max_nonneg {v : ℚ} :
    ∀ {vs : List ℚ}, 0 ≤ v → (∀ x ∈ vs, 0 ≤ x) → 0 ≤ vs.foldl max v := by
  intro vs
  induction vs generalizing v with
  | nil => intro hv _; exact hv
  | cons x xs ih =>
    intro hv hxs
    rw [List.foldl_cons]
    exact ih (le_trans hv (le_max_left v x)) (fun y hy => hxs y (by simp [hy]))

/-- Every amount produced by `_extract_amount_robust` passed through
`parse_european_amount`, hence is non-negative. -/
theorem abnExtractAmount_nonneg {ft : List Char} {lines : List String} {a : ℚ}
    (h : abnExtractAmount ft lines = some a) : 0 ≤ a := by
  unfold abnExtractAmount at h
  dsimp only at h
  have hScan : ∀ (ms : List (List Char)) (b : ℚ),
      (ms.findSome? (fun g =>
        match parseEuropeanAmount ⟨g⟩ with
        | some a => if decVal 0 1 2 ≤ |a| && |a| ≤ decVal 100000 0 0 then some a else none
        | none => none) = some b) → 0 ≤ b := by
    intro ms b hms
    obtain ⟨g, _, hg⟩ := findSome?_exists hms
    revert hg
    cases hp : parseEuropeanAmount ⟨g⟩ with
    | some x =>
      intro hg
      simp only [hp] at hg
      split at hg
      · rw [Option.some_inj] at hg
        rw [← hg]
        exact parseEuropeanAmount_nonneg hp
      · exact absurd hg (by simp)
    | none => intro hg; simp [hp] at hg
  split at h
  case _ heq =>
    rw [Option.some_inj] at h
    subst h
    obtain ⟨ms, _, hms⟩ := findSome?_exists heq
    exact hScan ms _ hms
  case _ =>
    split at h
    case _ heq =>
      rw [Option.some_inj] at h
      subst h
      obtain ⟨line, _, hline⟩ := findSome?_exists heq
      revert hline
      split
      · cases hscan : scanFirst (fun l => (matchSignedAmtAt l).map Prod.fst) line.data with
        | some g =>
          intro hline
          simp only [hscan] at hline
          exact parseEuropeanAmount_nonneg hline
        | none => intro hline; simp [hscan] at hline
      · intro hline; simp at hline
    case _ =>
      obtain ⟨g, _, hg⟩ := findSome?_exists h
      revert hg
      cases hp : parseEuropeanAmount ⟨g⟩ with
      | some x =>
        intro hg
        simp only [hp] at hg
        split at hg
        · rw [Option.some_inj] at hg
          rw [← hg]
          exact parseEuropeanAmount_nonneg hp
        · exact absurd hg (by simp)
      | none => intro hg; simp [hp] at hg

/-- The Revolut amount is either absent or a `parse_european_amount` result. -/
theorem revAmount_parse {line0 : String} {lines : List String} {q : ℚ}
    (h : revAmount line0 lines = some q) : ∃ s, parseEuropeanAmount s = some q := by
  unfold revAmount at h
  split at h
  · exact ⟨_, h⟩
  · split at h
    · exact ⟨_, h⟩
    · exact absurd h (by simp)

/-- `matchTotalAt` groups have the `\d+[,.]\d{2}` shape. -/
theorem matchTotalAt_shape {l g : List Char} (h : matchTotalAt l = some g) :
    ∃ ds sep d1 d2, g = ds ++ sep :: [d1, d2] ∧ ds ≠ [] ∧ (∀ c ∈ ds, c.isDigit) ∧
      (sep = ',' ∨ sep = '.') ∧ d1.isDigit ∧ d2.isDigit := by
  unfold matchTotalAt at h
  split at h
  case _ k heq =>
    dsimp only at h
    split at h
    · exact absurd h (by simp)
    · rw [Option.map_eq_some'] at h
      obtain ⟨⟨g', rest⟩, hm, hg⟩ := h
      obtain ⟨ds, sep, d1, d2, h1, h2, h3, h4, h5, h6⟩ := matchNumSep_shape hm
      refine ⟨ds, sep, d1, d2, ?_, h2, h3, ?_, h5, h6⟩
      · dsimp at hg; rw [← hg]; exact h1
      · rcases List.mem_cons.mp h4 with rfl | h4
        · exact Or.inl rfl
        · rcases List.mem_cons.mp h4 with rfl | h4
          · exact Or.inr rfl
          · simp at h4
  case _ => exact absurd h (by simp)

/-- The Generic amount is always present and non-negative. -/
theorem genAmount_isSome_nonneg (text : String) :
    ∃ a, genAmount text = some a ∧ 0 ≤ a := by
  unfold genAmount
  cases htot : scanFirst matchTotalAt text.data with
  | some g =>
    obtain ⟨l', hl'⟩ := scanFirst_exists htot
    obtain ⟨ds, sep, d1, d2, hshape, hne, hall, hsep, h1, h2⟩ := matchTotalAt_shape hl'
    dsimp only
    rw [hshape, parse_of_shape hne hall hsep h1 h2]
    exact ⟨_, rfl, decVal_nonneg _ _ _⟩
  | none =>
    dsimp only
    cases hsc : scanAll (matchNumSep ['.', ',']) text.data with
    | nil => exact ⟨0, rfl, le_refl 0⟩
    | cons a as =>
      cases hfm : (a :: as).filterMap (fun g => parseEuropeanAmount ⟨g⟩) with
      | nil => dsimp only; rw [hfm]; exact ⟨0, rfl, le_refl 0⟩
      | cons v vs =>
        dsimp only
        rw [hfm]
        refine ⟨vs.foldl max v, rfl, ?_⟩
        have hv : ∀ x ∈ v :: vs, 0 ≤ x := by
          intro x hx
          rw [← hfm] at hx
          obtain ⟨g, _, hg⟩ := List.mem_filterMap.mp hx
          exact parseEuropeanAmount_nonneg hg
        exact foldl_max_nonneg (hv v (by simp)) (fun x hx => hv x (by simp [hx]))

/-- Characterization of every candidate emitted by `RevolutParser.parse`:
validated positive amount, non-empty description, `EUR` currency, and the
relative-date handling of the `date`/`date_warning` fields. -/
theorem revolutParse_char {now : PyDate} {text : String} {c : Candidate}
    (h : c ∈ revolutParse now text) :
    (∃ q, c.amount = some q ∧ 0 < q) ∧ c.description ≠ "" ∧ c.currency = "EUR" ∧
      c.date = (if (detectRelativeDate text).isSome then ""
                else revDefaultDate now (pyLines text)) ∧
      c.dateWarning = (detectRelativeDate text).map
        (fun ind => "Original showed '" ++ ind ++ "' - please verify date") := by
  unfold revolutParse at h
  rcases hl : pyLines text with _ | ⟨line0, rest⟩
  · rw [hl] at h; simp at h
  · rw [hl] at h
    dsimp only at h
    split at h
    · simp at h
    case _ hng =>
      push_neg at hng
      obtain ⟨ha1, ha2, hd1, hd2⟩ := hng
      rw [List.mem_singleton] at h
      subst h
      dsimp only
      refine ⟨?_, ?_, rfl, ?_, rfl⟩
      · cases hA : revAmount line0 (line0 :: rest) with
        | none => exact absurd hA ha1
        | some q =>
          refine ⟨q, rfl, ?_⟩
          obtain ⟨s, hs⟩ := revAmount_parse hA
          have hnn := parseEuropeanAmount_nonneg hs
          have hq0 : q ≠ 0 := by
            intro hq
            exact ha2 (by rw [hA, hq])
          exact lt_of_le_of_ne hnn (Ne.symm hq0)
      · cases hD : revDescription (line0 :: rest) with
        | none => exact absurd hD hd1
        | some d =>
          have : d ≠ "" := by
            intro hd
            exact hd2 (by rw [hD, hd])
          simpa [hD] using this
      · simp only [hl]

/-- Characterization of every candidate emitted by `ABNAmroSingleParser.parse`:
present non-negative amount, `EUR` currency, and a date that is the extracted
one or today's. -/
theorem abnSingleParse_char {now : PyDate} {text : String} {c : Candidate}
    (h : c ∈ abnSingleParse now text) :
    (∃ a, c.amount = some a ∧ 0 ≤ a) ∧ c.currency = "EUR" := by
  unfold abnSingleParse at h
  dsimp only at h
  split at h
  case _ a desc hA hD =>
    split at h
    · rw [List.mem_singleton] at h
      subst h
      exact ⟨⟨a, rfl, abnExtractAmount_nonneg hA⟩, rfl⟩
    · simp at h
  case _ => simp at h

/-- Characterization of one emitted ABN AMRO list item. -/
theorem abnListItem_char {cd : String} {line : String} {c : Candidate}
    (h : abnListItem cd line = some c) :
    (∃ a, c.amount = some a ∧ 0 ≤ a) ∧ c.currency = "EUR" ∧ c.date = cd := by
  unfold abnListItem at h
  split at h
  case _ descG amtG htxn =>
    dsimp only at h
    split at h
    · split at h
      case _ a hP =>
        rw [Option.some_inj] at h
        subst h
        exact ⟨⟨a, rfl, parseEuropeanAmount_nonneg hP⟩, rfl, rfl⟩
      case _ => exact absurd h (by simp)
    · exact absurd h (by simp)
  case _ => exact absurd h (by simp)

/-- A matched list line whose description is only a weekday name yields no
candidate (`parsers.py:379-380`). -/
theorem abnListItem_weekday {cd : String} {line : String} {descG amtG : List Char}
    (htxn : txnMatch line.data = some (descG, amtG))
    (hwk : weekdaysLower.contains (pyLower (pyStrip ⟨descG⟩)) = true) :
    abnListItem cd line = none := by
  unfold abnListItem
  rw [htxn]
  dsimp only
  rw [hwk]
  simp

/-- Characterization of every candidate emitted by `ABNAmroListParser.parse`:
present non-negative amount, `EUR` currency, and the shared anchored date. -/
theorem abnListParse_char {now : PyDate} {text : String} {c : Candidate}
    (h : c ∈ abnListParse now text) :
    (∃ a, c.amount = some a ∧ 0 ≤ a) ∧ c.currency = "EUR" ∧
      c.date = abnListDate now (pyLines text) := by
  unfold abnListParse at h
  rcases hl : pyLines text with _ | ⟨l0, rest⟩
  · rw [hl] at h; simp at h
  · rw [hl] at h
    dsimp only at h
    obtain ⟨line, _, hline⟩ := List.mem_filterMap.mp h
    obtain ⟨hamt, hcur, hdate⟩ := abnListItem_char hline
    exact ⟨hamt, hcur, by simp only [hdate, hl]⟩

/-- Characterization of every candidate emitted by `GenericParser.parse`:
present non-negative amount and `EUR` currency. -/
theorem genericParse_char {now : PyDate} {text : String} {c : Candidate}
    (h : c ∈ genericParse now text) :
    (∃ a, c.amount = some a ∧ 0 ≤ a) ∧ c.currency = "EUR" := by
  unfold genericParse at h
  dsimp only at h
  split at h
  · simp at h
  · rw [List.mem_singleton] at h
    subst h
    obtain ⟨a, ha, hnn⟩ := genAmount_isSome_nonneg text
    exact ⟨⟨a, ha, hnn⟩, rfl⟩

/-! ## Claim-side specification functions -/

theorem categorizeAux_eq_find (tl : String) :
    ∀ (l : List (String × List String)),
      categorizeAux tl l =
        ((l.find? (fun p => p.2.any (fun k => pyIn k tl))).map Prod.fst).getD "Other" := by
  intro l
  induction l with
  | nil => rfl
  | cons p rest ih =>
    rw [categorizeAux, List.find?_cons]
    cases hp : p.2.any (fun k => pyIn k tl) with
    | true => simp [hp]
    | false => simp [hp, ih]

theorem smartCategorize_eq_spec (t : String) : smartCategorize t = specCategorize t := by
  unfold smartCategorize specCategorize
  exact categorizeAux_eq_find (pyLower t) categoryMap

theorem ratOfCent_eq (n : ℤ) : ratOfCent n = (n : ℚ) / 100 := by
  cases n with
  | ofNat m =>
    rw [ratOfCent, decVal_eq]
    push_cast
    norm_num
  | negSucc m =>
    rw [ratOfCent, qNeg_eq, decVal_eq, Int.cast_negSucc]
    push_cast
    ring_nf

theorem rheInt_eq {p q : ℤ} (hq : 0 < q) :
    rheInt p q = pyRoundHalfEven ((p : ℚ) / (q : ℚ)) := by
  have hq' : (0:ℚ) < (q : ℚ) := by exact_mod_cast hq
  have hfl : ⌊(p:ℚ) / (q:ℚ)⌋ = p / q := by
    have hqt : q = ((q.toNat : ℕ) : ℤ) := (Int.toNat_of_nonneg hq.le).symm
    rw [hqt]
    rw [show (((q.toNat : ℕ) : ℤ) : ℚ) = ((q.toNat : ℕ) : ℚ) by push_cast; ring]
    exact Rat.floor_intCast_div_natCast p q.toNat
  have hfr : Int.fract ((p:ℚ) / (q:ℚ)) = ((p % q : ℤ) : ℚ) / (q : ℚ) := by
    rw [Int.fract, hfl, Int.emod_def]
    push_cast
    field_simp
  have hlt : (Int.fract ((p:ℚ) / (q:ℚ)) < 1 / 2) ↔ (2 * (p % q) < q) := by
    rw [hfr, div_lt_iff hq']
    constructor
    · intro h
      have h2 : ((2 * (p % q) : ℤ) : ℚ) < (q : ℚ) := by push_cast; linarith
      exact_mod_cast h2
    · intro h
      have h2 : ((2 * (p % q) : ℤ) : ℚ) < (q : ℚ) := by exact_mod_cast h
      push_cast at h2
      linarith
  have hgt : (1 / 2 < Int.fract ((p:ℚ) / (q:ℚ))) ↔ (q < 2 * (p % q)) := by
    rw [hfr, lt_div_iff hq']
    constructor
    · intro h
      have h2 : (q : ℚ) < ((2 * (p % q) : ℤ) : ℚ) := by push_cast; linarith
      exact_mod_cast h2
    · intro h
      have h2 : (q : ℚ) < ((2 * (p % q) : ℤ) : ℚ) := by exact_mod_cast h
      push_cast at h2
      linarith
  unfold rheInt pyRoundHalfEven
  rw [hfl]
  simp only [hlt, hgt]
  rfl

theorem round2div_eq (a r : ℚ) (hr : r ≠ 0) : round2div a r = pyRound2 (a / r) := by
  have hden : ((a.den : ℤ) : ℚ) ≠ 0 := by
    have := a.den_nz
    exact_mod_cast (by exact_mod_cast Nat.pos_of_ne_zero this : (0:ℤ) < (a.den : ℤ)).ne'
  have hrden : ((r.den : ℤ) : ℚ) ≠ 0 := by
    have := r.den_nz
    exact_mod_cast (by exact_mod_cast Nat.pos_of_ne_zero this : (0:ℤ) < (r.den : ℤ)).ne'
  have hrnum : r.num ≠ 0 := Rat.num_ne_zero.mpr hr
  have hrnumQ : ((r.num : ℤ) : ℚ) ≠ 0 := by exact_mod_cast hrnum
  have key : (a / r) * 100 =
      ((a.num * (r.den : ℤ) * 100 : ℤ) : ℚ) / (((a.den : ℤ) * r.num : ℤ) : ℚ) := by
    conv_lhs => rw [← Rat.num_div_den a, ← Rat.num_div_den r]
    push_cast
    field_simp
  have hqz : (a.den : ℤ) * r.num ≠ 0 := by
    intro hcon
    rcases mul_eq_zero.mp hcon with hcon | hcon
    · exact absurd hcon (by exact_mod_cast a.den_nz)
    · exact hrnum hcon
  unfold round2div pyRound2
  dsimp only
  split
  case isTrue hneg =>
    have hpos : 0 < -((a.den : ℤ) * r.num) := by omega
    rw [rheInt_eq hpos, ratOfCent_eq, key]
    congr 2
    push_cast
    rw [neg_div_neg_eq]
  case isFalse hpos' =>
    have hpos : 0 < (a.den : ℤ) * r.num := by
      rcases lt_trichotomy ((a.den : ℤ) * r.num) 0 with hc | hc | hc
      · exact absurd hc hpos'
      · exact absurd hc hqz
      · exact hc
    rw [rheInt_eq hpos, ratOfCent_eq, key]

/-! ## General separator-resolution lemmas for the Amount Normalizer -/

theorem rfind_append_right {c : Char} :
    ∀ (xs ys : List Char), c ∉ ys → rfind c (xs ++ ys) = rfind c xs := by
  intro xs
  induction xs with
  | nil =>
    intro ys hys
    rw [List.nil_append, rfind_eq_neg_one_of_not_mem hys]
    rfl
  | cons x t ih =>
    intro ys hys
    rw [List.cons_append, rfind, rfind, ih ys hys]

theorem filter_ne_of_digits {x : Char} (hx : x.isDigit = false) {ds : List Char}
    (hall : ∀ c ∈ ds, c.isDigit) : ds.filter (· ≠ x) = ds := by
  apply List.filter_eq_self.mpr
  intro c hc
  have := digit_ne (hall c hc) hx
  simp [this]

theorem map_comma_dot_digits {ds : List Char} (hall : ∀ c ∈ ds, c.isDigit) :
    ds.map (fun c => if c = ',' then '.' else c) = ds := by
  have hid : ds.map (fun c => if c = ',' then '.' else c) = ds.map id := by
    apply List.map_congr_left
    intro a ha
    have := digit_ne (hall a ha) (show Char.isDigit ',' = false by decide)
    simp [this]
  rw [hid, List.map_id]

/-- Cleaning is the identity on strings of digits and `.`/`,` separators. -/
theorem euro_cleaned_id {l : List Char}
    (h : ∀ c ∈ l, c.isDigit ∨ c = ',' ∨ c = '.') :
    l.filter (fun c => !(c = '€' || c = '$' || c = '£' || c = '-')) = l ∧
      pyStripL l = l := by
  constructor
  · apply List.filter_eq_self.mpr
    intro c hc
    rcases h c hc with hd | rfl | rfl
    · have e1 := digit_ne hd (show Char.isDigit '€' = false by decide)
      have e2 := digit_ne hd (show Char.isDigit '$' = false by decide)
      have e3 := digit_ne hd (show Char.isDigit '£' = false by decide)
      have e4 := digit_ne hd (show Char.isDigit '-' = false by decide)
      simp [e1, e2, e3, e4]
    · decide
    · decide
  · apply pyStripL_eq_self
    intro c hc
    rcases h c hc with hd | rfl | rfl
    · exact digit_not_ws hd
    · decide
    · decide

theorem pyFloat_allDigits {ds : List Char} (hne : ds ≠ [])
    (hall : ∀ c ∈ ds, c.isDigit) :
    pyFloat? ds = some (decVal (natOfDigits ds) 0 0) := by
  have hws : ∀ c ∈ ds, isPyWs c = false := fun c hc => digit_not_ws (hall c hc)
  have hPU : parseUnsigned ds = some (decVal (natOfDigits ds) 0 0) := by
    unfold parseUnsigned
    dsimp only
    have htake : ds.takeWhile Char.isDigit = ds :=
      List.takeWhile_eq_self_iff.mpr (by simpa using hall)
    rw [htake, List.drop_length]
    simp [hne]
  cases ds with
  | nil => exact absurd rfl hne
  | cons c t =>
    have hc : c.isDigit := hall c (by simp)
    unfold pyFloat?
    rw [pyStripL_eq_self hws]
    split
    case _ rest heq =>
      exfalso
      injection heq with hc1
      exact absurd hc1 (digit_ne hc (by decide))
    case _ rest heq =>
      exfalso
      injection heq with hc1
      exact absurd hc1 (digit_ne hc (by decide))
    case _ => exact hPU

/-- Membership classification for the two-separator strings of the general
separator lemmas. -/
theorem euro_mem_classify {a b dd : List Char} {s1 s2 : Char}
    (ha : ∀ c ∈ a, c.isDigit) (hb : ∀ c ∈ b, c.isDigit) (hdd : ∀ c ∈ dd, c.isDigit)
    (hs1 : s1 = ',' ∨ s1 = '.') (hs2 : s2 = ',' ∨ s2 = '.') :
    ∀ c ∈ a ++ s1 :: (b ++ s2 :: dd), c.isDigit ∨ c = ',' ∨ c = '.' := by
  intro c hc
  rcases List.mem_append.mp hc with hc | hc
  · exact Or.inl (ha c hc)
  · rcases List.mem_cons.mp hc with rfl | hc
    · rcases hs1 with rfl | rfl
      · exact Or.inr (Or.inl rfl)
      · exact Or.inr (Or.inr rfl)
    · rcases List.mem_append.mp hc with hc | hc
      · exact Or.inl (hb c hc)
      · rcases List.mem_cons.mp hc with rfl | hc
        · rcases hs2 with rfl | rfl
          · exact Or.inr (Or.inl rfl)
          · exact Or.inr (Or.inr rfl)
        · exact Or.inl (hdd c hc)

/-- European format `D1.D2,dd`: the dot is stripped as a thousands separator
and the comma becomes the decimal point. -/
theorem parseEuro_european {a b : List Char} {d1 d2 : Char}
    (hane : a ≠ []) (ha : ∀ c ∈ a, c.isDigit)
    (hb : ∀ c ∈ b, c.isDigit) (h1 : d1.isDigit) (h2 : d2.isDigit) :
    parseEuropeanAmount ⟨a ++ '.' :: (b ++ ',' :: [d1, d2])⟩ =
      some (decVal (natOfDigits (a ++ b)) (natOfDigits [d1, d2]) 2) := by
  have hdd : ∀ c ∈ ([d1, d2] : List Char), c.isDigit := by
    intro c hc
    rcases List.mem_cons.mp hc with rfl | hc
    · exact h1
    · rcases List.mem_cons.mp hc with rfl | hc
      · exact h2
      · simp at hc
  have hmem := euro_mem_classify ha hb hdd (Or.inr rfl) (Or.inl rfl)
  obtain ⟨hfil, hstrip⟩ := euro_cleaned_id hmem
  have hs : (⟨a ++ '.' :: (b ++ ',' :: [d1, d2])⟩ : String) ≠ "" := by
    intro hcon
    have hdata := congrArg String.data hcon
    rw [show ("" : String).data = [] from rfl] at hdata
    cases a <;> simp at hdata
  unfold parseEuropeanAmount
  rw [if_neg hs]
  dsimp only
  rw [hfil, hstrip]
  have hdot : '.' ∈ a ++ '.' :: (b ++ ',' :: [d1, d2]) := by simp
  have hcomma : ',' ∈ a ++ '.' :: (b ++ ',' :: [d1, d2]) := by simp
  rw [if_pos ⟨List.elem_iff.mpr hdot, List.elem_iff.mpr hcomma⟩]
  have hassoc : a ++ '.' :: (b ++ ',' :: [d1, d2]) =
      (a ++ '.' :: b) ++ ',' :: [d1, d2] := by simp
  have hnc_dd : ',' ∉ ([d1, d2] : List Char) := by
    intro hc
    rcases List.mem_cons.mp hc with hx | hx
    · exact absurd hx.symm (digit_ne h1 (by decide))
    · rcases List.mem_cons.mp hx with hy | hy
      · exact absurd hy.symm (digit_ne h2 (by decide))
      · simp at hy
  have hrfc : rfind ',' (a ++ '.' :: (b ++ ',' :: [d1, d2])) =
      (a ++ '.' :: b).length := by
    rw [hassoc]
    exact rfind_append_unique _ _ hnc_dd
  have hnd_suffix : '.' ∉ ',' :: [d1, d2] := by
    intro hc
    rcases List.mem_cons.mp hc with hx | hx
    · exact absurd hx (by decide)
    · rcases List.mem_cons.mp hx with hx | hx
      · exact absurd hx.symm (digit_ne h1 (by decide))
      · rcases List.mem_cons.mp hx with hy | hy
        · exact absurd hy.symm (digit_ne h2 (by decide))
        · simp at hy
  have hnd_b : '.' ∉ b := by
    intro hc
    exact absurd rfl (digit_ne (hb '.' hc) (by decide))
  have hrfd : rfind '.' (a ++ '.' :: (b ++ ',' :: [d1, d2])) = a.length := by
    rw [show a ++ '.' :: (b ++ ',' :: [d1, d2]) = (a ++ '.' :: b) ++ ',' :: [d1, d2] by simp]
    rw [rfind_append_right _ _ hnd_suffix]
    exact rfind_append_unique a b hnd_b
  have hcmp : rfind ',' (a ++ '.' :: (b ++ ',' :: [d1, d2])) >
      rfind '.' (a ++ '.' :: (b ++ ',' :: [d1, d2])) := by
    rw [hrfc, hrfd]
    simp only [List.length_append, List.length_cons]
    push_cast
    omega
  rw [if_pos hcmp]
  have hfil2 : (a ++ '.' :: (b ++ ',' :: [d1, d2])).filter (· ≠ '.') =
      (a ++ b) ++ ',' :: [d1, d2] := by
    rw [List.filter_append, List.filter_cons]
    rw [filter_ne_of_digits (by decide) ha]
    simp only [ne_eq, not_true_eq_false, decide_False, cond_false]
    rw [List.filter_append, List.filter_cons]
    rw [filter_ne_of_digits (by decide) hb]
    have hd1c : d1 ≠ '.' := digit_ne h1 (by decide)
    have hd2c : d2 ≠ '.' := digit_ne h2 (by decide)
    simp [hd1c, hd2c]
  rw [hfil2]
  have hmap : ((a ++ b) ++ ',' :: [d1, d2]).map (fun c => if c = ',' then '.' else c) =
      (a ++ b) ++ '.' :: [d1, d2] := by
    rw [List.map_append]
    rw [map_comma_dot_digits (by
      intro c hc
      rcases List.mem_append.mp hc with hc | hc
      · exact ha c hc
      · exact hb c hc)]
    have hd1c : d1 ≠ ',' := digit_ne h1 (by decide)
    have hd2c : d2 ≠ ',' := digit_ne h2 (by decide)
    simp [hd1c, hd2c]
  rw [hmap]
  exact pyFloat_digits (by cases a <;> simp_all) (by
    intro c hc
    rcases List.mem_append.mp hc with hc | hc
    · exact ha c hc
    · exact hb c hc) h1 h2

/-- US format `D1,D2.dd`: the comma is stripped as a thousands separator and
the dot is the decimal point. -/
theorem parseEuro_us {a b : List Char} {d1 d2 : Char}
    (hane : a ≠ []) (ha : ∀ c ∈ a, c.isDigit)
    (hb : ∀ c ∈ b, c.isDigit) (h1 : d1.isDigit) (h2 : d2.isDigit) :
    parseEuropeanAmount ⟨a ++ ',' :: (b ++ '.' :: [d1, d2])⟩ =
      some (decVal (natOfDigits (a ++ b)) (natOfDigits [d1, d2]) 2) := by
  have hdd : ∀ c ∈ ([d1, d2] : List Char), c.isDigit := by
    intro c hc
    rcases List.mem_cons.mp hc with rfl | hc
    · exact h1
    · rcases List.mem_cons.mp hc with rfl | hc
      · exact h2
      · simp at hc
  have hmem := euro_mem_classify ha hb hdd (Or.inl rfl) (Or.inr rfl)
  obtain ⟨hfil, hstrip⟩ := euro_cleaned_id hmem
  have hs : (⟨a ++ ',' :: (b ++ '.' :: [d1, d2])⟩ : String) ≠ "" := by
    intro hcon
    have hdata := congrArg String.data hcon
    rw [show ("" : String).data = [] from rfl] at hdata
    cases a <;> simp at hdata
  unfold parseEuropeanAmount
  rw [if_neg hs]
  dsimp only
  rw [hfil, hstrip]
  have hdot : '.' ∈ a ++ ',' :: (b ++ '.' :: [d1, d2]) := by simp
  have hcomma : ',' ∈ a ++ ',' :: (b ++ '.' :: [d1, d2]) := by simp
  rw [if_pos ⟨List.elem_iff.mpr hdot, List.elem_iff.mpr hcomma⟩]
  have hnd_dd : '.' ∉ ([d1, d2] : List Char) := by
    intro hc
    rcases List.mem_cons.mp hc with hx | hx
    · exact absurd hx.symm (digit_ne h1 (by decide))
    · rcases List.mem_cons.mp hx with hy | hy
      · exact absurd hy.symm (digit_ne h2 (by decide))
      · simp at hy
  have hrfd : rfind '.' (a ++ ',' :: (b ++ '.' :: [d1, d2])) =
      (a ++ ',' :: b).length := by
    rw [show a ++ ',' :: (b ++ '.' :: [d1, d2]) = (a ++ ',' :: b) ++ '.' :: [d1, d2] by simp]
    exact rfind_append_unique _ _ hnd_dd
  have hnc_suffix : ',' ∉ '.' :: [d1, d2] := by
    intro hc
    rcases List.mem_cons.mp hc with hx | hx
    · exact absurd hx (by decide)
    · rcases List.mem_cons.mp hx with hx | hx
      · exact absurd hx.symm (digit_ne h1 (by decide))
      · rcases List.mem_cons.mp hx with hy | hy
        · exact absurd hy.symm (digit_ne h2 (by decide))
        · simp at hy
  have hnc_b : ',' ∉ b := by
    intro hc
    exact absurd rfl (digit_ne (hb ',' hc) (by decide))
  have hrfc : rfind ',' (a ++ ',' :: (b ++ '.' :: [d1, d2])) = a.length := by
    rw [show a ++ ',' :: (b ++ '.' :: [d1, d2]) = (a ++ ',' :: b) ++ '.' :: [d1, d2] by simp]
    rw [rfind_append_right _ _ hnc_suffix]
    exact rfind_append_unique a b hnc_b
  have hcmp : ¬(rfind ',' (a ++ ',' :: (b ++ '.' :: [d1, d2])) >
      rfind '.' (a ++ ',' :: (b ++ '.' :: [d1, d2]))) := by
    rw [hrfc, hrfd]
    simp only [List.length_append, List.length_cons]
    push_cast
    omega
  rw [if_neg hcmp]
  have hfil2 : (a ++ ',' :: (b ++ '.' :: [d1, d2])).filter (· ≠ ',') =
      (a ++ b) ++ '.' :: [d1, d2] := by
    rw [List.filter_append, List.filter_cons]
    rw [filter_ne_of_digits (by decide) ha]
    simp only [ne_eq, not_true_eq_false, decide_False, cond_false]
    rw [List.filter_append, List.filter_cons]
    rw [filter_ne_of_digits (by decide) hb]
    have hd1c : d1 ≠ ',' := digit_ne h1 (by decide)
    have hd2c : d2 ≠ ',' := digit_ne h2 (by decide)
    simp [hd1c, hd2c]
  rw [hfil2]
  exact pyFloat_digits (by cases a <;> simp_all) (by
    intro c hc
    rcases List.mem_append.mp hc with hc | hc
    · exact ha c hc
    · exact hb c hc) h1 h2

/-- Comma-only with other than exactly two digits after it: the comma is a
thousands separator and is stripped. -/
theorem parseEuro_thousands {a b : List Char}
    (hane : a ≠ []) (ha : ∀ c ∈ a, c.isDigit) (hb : ∀ c ∈ b, c.isDigit)
    (hlen : b.length ≠ 2) :
    parseEuropeanAmount ⟨a ++ ',' :: b⟩ =
      some (decVal (natOfDigits (a ++ b)) 0 0) := by
  have hmem : ∀ c ∈ a ++ ',' :: b, c.isDigit ∨ c = ',' ∨ c = '.' := by
    intro c hc
    rcases List.mem_append.mp hc with hc | hc
    · exact Or.inl (ha c hc)
    · rcases List.mem_cons.mp hc with rfl | hc
      · exact Or.inr (Or.inl rfl)
      · exact Or.inl (hb c hc)
  obtain ⟨hfil, hstrip⟩ := euro_cleaned_id hmem
  have hs : (⟨a ++ ',' :: b⟩ : String) ≠ "" := by
    intro hcon
    have hdata := congrArg String.data hcon
    rw [show ("" : String).data = [] from rfl] at hdata
    cases a <;> simp at hdata
  unfold parseEuropeanAmount
  rw [if_neg hs]
  dsimp only
  rw [hfil, hstrip]
  have hnd : '.' ∉ a ++ ',' :: b := by
    intro hc
    rcases hmem '.' hc with hd | hd | hd
    · exact absurd hd (by decide)
    · exact absurd hd (by decide)
    · rcases List.mem_append.mp hc with hc2 | hc2
      · exact absurd rfl (digit_ne (ha '.' hc2) (by decide))
      · rcases List.mem_cons.mp hc2 with hx | hx
        · exact absurd hx (by decide)
        · exact absurd rfl (digit_ne (hb '.' hx) (by decide))
  have hcond1 : ¬((a ++ ',' :: b).contains '.' = true ∧
      (a ++ ',' :: b).contains ',' = true) := by
    intro hcontr
    exact hnd (List.elem_iff.mp hcontr.1)
  rw [if_neg hcond1]
  have hcomma : (a ++ ',' :: b).contains ',' = true := by
    rw [List.elem_iff]
    simp
  rw [if_pos hcomma]
  have hnc_b : ',' ∉ b := by
    intro hc
    exact absurd rfl (digit_ne (hb ',' hc) (by decide))
  have hrf : rfind ',' (a ++ ',' :: b) = a.length := rfind_append_unique a b hnc_b
  rw [hrf]
  have hdrop : (a ++ ',' :: b).drop ((a.length : ℤ).toNat + 1) = b := by
    rw [Int.toNat_natCast]
    rw [show a ++ ',' :: b = (a ++ [',']) ++ b by simp]
    rw [show a.length + 1 = (a ++ [',']).length by simp]
    exact List.drop_left _ _
  rw [hdrop]
  have hcond2 : ¬(b.length = 2 ∧ b.all Char.isDigit = true) := by
    intro hcontr
    exact hlen hcontr.1
  rw [if_neg hcond2]
  have hfil2 : (a ++ ',' :: b).filter (· ≠ ',') = a ++ b := by
    rw [List.filter_append, List.filter_cons]
    rw [filter_ne_of_digits (by decide) ha]
    simp only [ne_eq, not_true_eq_false, decide_False, cond_false]
    rw [filter_ne_of_digits (by decide) hb]
    simp
  rw [hfil2]
  exact pyFloat_allDigits (by cases a <;> simp_all) (by
    intro c hc
    rcases List.mem_append.mp hc with hc | hc
    · exact ha c hc
    · exact hb c hc)

/-! ## Orchestrator helper lemmas -/

theorem parseBySource_currency {src : String} {now : PyDate} {text : String} {c : Candidate}
    (h : c ∈ parseBySource src now text) : c.currency = "EUR" := by
  unfold parseBySource at h
  split at h
  · exact (revolutParse_char h).2.2.1
  · split at h
    · exact (abnSingleParse_char h).2
    · split at h
      · exact (abnListParse_char h).2.1
      · exact (genericParse_char h).2

theorem enrich_eur_eq (fx fx' : String → Option String → ℚ) {c : Candidate}
    (h : c.currency = "EUR") : enrich fx c = enrich fx' c := by
  unfold enrich getFxRate
  rw [h]
  simp

theorem enrich_eur_fxRate (fx : String → Option String → ℚ) {c : Candidate}
    (h : c.currency = "EUR") : (enrich fx c).fxRate = 1 := by
  unfold enrich getFxRate
  rw [h]
  simp

set_option maxRecDepth 100000

/-! ## The claims -/

/-- **C1, amended.**  Every candidate returned by any of the four parsers has
an `amount` that is present (never `None`) and non-negative, and a present
`description` string; `RevolutParser.parse` additionally guarantees a strictly
positive amount and a non-empty description.  (As stated, the claim — strictly
positive amount and non-empty description for *all four* parsers — fails: see
the counterexample.)  Candidates failing a parser's own validation are dropped
silently; the parsers always return a list, never an error. -/
theorem C1_amended_parser_candidate_wellformedness :
    ∀ (now : PyDate) (text : String),
      (∀ c ∈ revolutParse now text,
        (∃ q, c.amount = some q ∧ 0 < q) ∧ c.description ≠ "") ∧
      (∀ c ∈ abnSingleParse now text, ∃ q, c.amount = some q ∧ 0 ≤ q) ∧
      (∀ c ∈ abnListParse now text, ∃ q, c.amount = some q ∧ 0 ≤ q) ∧
      (∀ c ∈ genericParse now text, ∃ q, c.amount = some q ∧ 0 ≤ q) := by
  intro now text
  refine ⟨?_, ?_, ?_, ?_⟩
  · intro c hc
    obtain ⟨hq, hd, _, _, _⟩ := revolutParse_char hc
    exact ⟨hq, hd⟩
  · intro c hc; exact (abnSingleParse_char hc).1
  · intro c hc; exact (abnListParse_char hc).1
  · intro c hc; exact (genericParse_char hc).1

/-- **C1, counterexample.**  On the text `"BEA,\nBalance 0,00"`,
`ABNAmroSingleParser.parse` emits one candidate whose amount is `0.0` (not
`> 0`) and whose cleaned description is the empty string — refuting the claim
that every emitted candidate has a strictly positive amount and a non-empty
description. -/
theorem C1_counterexample_zero_amount_empty_description :
    abnSingleParse today0 "BEA,\nBalance 0,00" = [beaCand] ∧
      ¬(∀ c ∈ abnSingleParse today0 "BEA,\nBalance 0,00",
          (∃ q, c.amount = some q ∧ 0 < q) ∧ c.description ≠ "") := by
  refine ⟨by decide, ?_⟩
  intro hall
  have hmem : beaCand ∈ abnSingleParse today0 "BEA,\nBalance 0,00" := by
    rw [show abnSingleParse today0 "BEA,\nBalance 0,00" = [beaCand] from by decide]
    simp
  exact (hall beaCand hmem).2 rfl

theorem C1_witness :
    ∃ q, zeroCand.amount = some q ∧ 0 ≤ q :=
  (C1_amended_parser_candidate_wellformedness today0 "0,00").2.2.2 zeroCand (by decide)

/-- **C2.**  The Amount Normalizer resolves separators exactly as claimed:
the spec's four edge cases map to `1524.55`, `1524.55`, `6.50` and `1524`;
malformed input yields no value; and, in general, with both separators
present the later one is the decimal point (European `D.D,dd` and US `D,D.dd`
schemas), while a lone comma is a decimal point exactly when exactly two
digits follow it, and a thousands separator otherwise. -/
theorem C2_separator_resolution :
    parseEuropeanAmount "1.524,55" = some (152455 / 100 : ℚ) ∧
    parseEuropeanAmount "1,524.55" = some (152455 / 100 : ℚ) ∧
    parseEuropeanAmount "6,50" = some (650 / 100 : ℚ) ∧
    parseEuropeanAmount "1,524" = some 1524 ∧
    parseEuropeanAmount "abc" = none ∧
    parseEuropeanAmount "" = none ∧
    (∀ (a b : List Char) (d1 d2 : Char), a ≠ [] → (∀ c ∈ a, c.isDigit) →
      (∀ c ∈ b, c.isDigit) → d1.isDigit → d2.isDigit →
      parseEuropeanAmount ⟨a ++ '.' :: (b ++ ',' :: [d1, d2])⟩ =
        some (decVal (natOfDigits (a ++ b)) (natOfDigits [d1, d2]) 2)) ∧
    (∀ (a b : List Char) (d1 d2 : Char), a ≠ [] → (∀ c ∈ a, c.isDigit) →
      (∀ c ∈ b, c.isDigit) → d1.isDigit → d2.isDigit →
      parseEuropeanAmount ⟨a ++ ',' :: (b ++ '.' :: [d1, d2])⟩ =
        some (decVal (natOfDigits (a ++ b)) (natOfDigits [d1, d2]) 2)) ∧
    (∀ (a : List Char) (d1 d2 : Char), a ≠ [] → (∀ c ∈ a, c.isDigit) →
      d1.isDigit → d2.isDigit →
      parseEuropeanAmount ⟨a ++ ',' :: [d1, d2]⟩ =
        some (decVal (natOfDigits a) (natOfDigits [d1, d2]) 2)) ∧
    (∀ (a b : List Char), a ≠ [] → (∀ c ∈ a, c.isDigit) → (∀ c ∈ b, c.isDigit) →
      b.length ≠ 2 →
      parseEuropeanAmount ⟨a ++ ',' :: b⟩ = some (decVal (natOfDigits (a ++ b)) 0 0)) := by
  refine ⟨?_, ?_, ?_, ?_, by decide, by decide, ?_, ?_, ?_, ?_⟩
  · rw [show parseEuropeanAmount "1.524,55" = some (decVal 1524 55 2) from by decide,
      decVal_eq]
    norm_num
  · rw [show parseEuropeanAmount "1,524.55" = some (decVal 1524 55 2) from by decide,
      decVal_eq]
    norm_num
  · rw [show parseEuropeanAmount "6,50" = some (decVal 6 50 2) from by decide, decVal_eq]
    norm_num
  · rw [show parseEuropeanAmount "1,524" = some (decVal 1524 0 0) from by decide, decVal_eq]
    norm_num
  · intro a b d1 d2 h1 h2 h3 h4 h5
    exact parseEuro_european h1 h2 h3 h4 h5
  · intro a b d1 d2 h1 h2 h3 h4 h5
    exact parseEuro_us h1 h2 h3 h4 h5
  · intro a d1 d2 h1 h2 h3 h4
    exact parse_of_shape h1 h2 (Or.inl rfl) h3 h4
  · intro a b h1 h2 h3 h4
    exact parseEuro_thousands h1 h2 h3 h4

theorem C2_witness :
    parseEuropeanAmount ⟨['1'] ++ '.' :: (['5', '2', '4'] ++ ',' :: ['5', '5'])⟩ =
      some (decVal (natOfDigits (['1'] ++ ['5', '2', '4'])) (natOfDigits ['5', '5']) 2) :=
  C2_separator_resolution.2.2.2.2.2.2.1 ['1'] ['5', '2', '4'] '5' '5'
    (by decide) (by decide) (by decide) (by decide) (by decide)

/-- **C3 (supporting evaluation for the code bug).**  The `SourceIdentifier`
wired into the application (`ocr_processor.py`, whose module never imports
`re`) raises `NameError` on any ABN text lacking the `execution`/`from
account` pair — instead of returning `ABN_AMRO_SINGLE`/`ABN_AMRO_LIST` as the
claim describes and as the `services.py` duplicate (with `re` imported)
actually does. -/
theorem C3_identify_source_name_error :
    identifySourceApp "abn amro" = Except.error PyExn.nameError ∧
    identifySource "abn amro" = "ABN_AMRO_SINGLE" ∧
    identifySourceApp "abn amro\n-12,34\n-5,00" = Except.error PyExn.nameError ∧
    identifySource "abn amro\n-12,34\n-5,00" = "ABN_AMRO_LIST" ∧
    identifySource "Split Bill\nRevolut" = "Revolut" ∧
    identifySourceApp "Split Bill\nRevolut" = Except.ok "Revolut" ∧
    identifySource "ABN AMRO Execution\nFrom account" = "ABN_AMRO_SINGLE" ∧
    identifySourceApp "ABN AMRO Execution\nFrom account" = Except.ok "ABN_AMRO_SINGLE" ∧
    identifySource "hello world" = "Generic" ∧
    identifySourceApp "hello world" = Except.ok "Generic" := by
  decide

/-- **C4.**  `process_image` never propagates an exception: with
empty/whitespace-only OCR text it returns `[]`, any exception of the embedded
pipeline (the `identify_source` `NameError` is the one raising step) is
converted to `[]` by the top-level `except`, and otherwise the pipeline's
result list is returned as-is. -/
theorem C4_process_image_never_raises :
    ∀ (fx : String → Option String → ℚ) (now : PyDate) (ocrText : String),
      (pyStrip ocrText = "" → processImage fx now ocrText = []) ∧
      (∀ e, pipelineE fx now ocrText = Except.error e → processImage fx now ocrText = []) ∧
      (∀ rs, pyStrip ocrText ≠ "" → pipelineE fx now ocrText = Except.ok rs →
        processImage fx now ocrText = rs) := by
  intro fx now t
  refine ⟨?_, ?_, ?_⟩
  · intro h
    unfold processImage
    rw [if_pos h]
  · intro e he
    unfold processImage
    split
    · rfl
    · rw [he]
  · intro rs hne hok
    unfold processImage
    rw [if_neg hne, hok]

theorem C4_witness :
    processImage fxUSD today0 "   " = [] ∧ processImage fxUSD today0 "abn amro" = [] :=
  ⟨(C4_process_image_never_raises fxUSD today0 "   ").1 (by decide),
   (C4_process_image_never_raises fxUSD today0 "abn amro").2.1 PyExn.nameError (by decide)⟩

/-- **C5.**  The ABN AMRO list parser on the spec's example text returns
exactly the two candidates, both dated `2025-05-29`, amounts `4.50` and
`23.10` (`decVal 4 50 2 = 4.50`, `decVal 23 10 2 = 23.10`), with `Coffee
Shop → Caffeine`; in general every produced candidate carries the single
anchored date, and a matched line whose description is only a weekday name
produces no candidate. -/
theorem C5_abn_list_claims :
    (∀ now : PyDate, abnListParse now listText = [coffeeCand, supermarketCand]) ∧
    (decVal 4 50 2 = (450 / 100 : ℚ) ∧ decVal 23 10 2 = (2310 / 100 : ℚ)) ∧
    (∀ (now : PyDate) (text : String) (c : Candidate),
      c ∈ abnListParse now text → c.date = abnListDate now (pyLines text)) ∧
    (∀ (cd line : String) (descG amtG : List Char),
      txnMatch line.data = some (descG, amtG) →
      weekdaysLower.contains (pyLower (pyStrip ⟨descG⟩)) = true →
      abnListItem cd line = none) := by
  refine ⟨?_, ⟨by rw [decVal_eq]; norm_num, by rw [decVal_eq]; norm_num⟩, ?_, ?_⟩
  · intro now
    have hlines : pyLines listText =
        ["Thursday 29 May 2025", "Coffee Shop - 4,50", "Supermarket - 23,10"] := by decide
    have hanchor : (pyLines listText).findSome? strptimeAnchor =
        some ⟨2025, 5, 29⟩ := by decide
    have hdate : abnListDate now (pyLines listText) = "2025-05-29" := by
      unfold abnListDate
      rw [hanchor]
      rfl
    unfold abnListParse
    rw [hlines] at hdate ⊢
    dsimp only
    rw [hdate]
    decide
  · intro now text c hc
    exact (abnListParse_char hc).2.2
  · intro cd line descG amtG htxn hwk
    exact abnListItem_weekday htxn hwk

theorem C5_witness :
    coffeeCand.date = abnListDate today0 (pyLines listText) ∧
      abnListItem "2025-05-29" "Monday - 5,00" = none :=
  ⟨(C5_abn_list_claims.2.2.1 today0 listText coffeeCand
      (by rw [C5_abn_list_claims.1 today0]; simp)),
   C5_abn_list_claims.2.2.2 "2025-05-29" "Monday - 5,00"
     "Monday".data "5,00".data (by decide) (by decide)⟩

/-- **C6.**  Whenever the text contains a relative-date phrase, every
candidate `RevolutParser.parse` emits has an empty `date` and carries a
`date_warning`; no date is guessed. -/
theorem C6_relative_date_leaves_date_empty :
    ∀ (now : PyDate) (text : String) (c : Candidate),
      (detectRelativeDate text).isSome = true →
      c ∈ revolutParse now text →
      c.date = "" ∧ c.dateWarning.isSome = true := by
  intro now text c hrel hc
  obtain ⟨_, _, _, hdate, hwarn⟩ := revolutParse_char hc
  refine ⟨by rw [hdate, if_pos hrel], ?_⟩
  rw [hwarn]
  cases hd : detectRelativeDate text with
  | none => rw [hd] at hrel; simp at hrel
  | some ind => simp

theorem C6_witness :
    todayCand.date = "" ∧ todayCand.dateWarning.isSome = true :=
  C6_relative_date_leaves_date_empty today0 todayText todayCand (by decide)
    (by rw [show revolutParse today0 todayText = [todayCand] from by decide]; simp)

/-- **C7.**  `smart_categorize` returns the first category of the fixed
ordered table whose keyword set matches (case-insensitively), and `"Other"`
when no keyword of any category matches; with keywords of several categories
present, the earliest category in table order wins (e.g. `restaurant` +
`coffee` give `Restaurants`). -/
theorem C7_first_match_categorization :
    (∀ t, smartCategorize t = specCategorize t) ∧
    (∀ t, (∀ p ∈ categoryMap, p.2.any (fun k => pyIn k (pyLower t)) = false) →
      smartCategorize t = "Other") ∧
    smartCategorize "restaurant coffee" = "Restaurants" ∧
    smartCategorize "Coffee Shop" = "Caffeine" ∧
    smartCategorize "Supermarket" = "Groceries" ∧
    smartCategorize "zzz" = "Other" := by
  refine ⟨smartCategorize_eq_spec, ?_, by decide, by decide, by decide, by decide⟩
  intro t hno
  rw [smartCategorize_eq_spec]
  unfold specCategorize
  rw [List.find?_eq_none.mpr (by
    intro p hp
    rw [hno p hp]
    simp)]
  rfl

theorem C7_witness : smartCategorize "zzz" = "Other" :=
  C7_first_match_categorization.2.1 "zzz" (by decide)

/-- **C8.**  Orchestrator enrichment: when the amount is truthy and the
resolved rate is non-zero, `amount_eur = round(amount / fx_rate, 2)`
(round-half-even, Python's `round`); otherwise `0.0`; `person` defaults to
the placeholder `"Közös"` and `beneficiary` to `""`; concretely, amount `10.0`
at a resolved rate `1.08` yields `amount_eur = 9.26`. -/
theorem C8_enrichment :
    (∀ (fx : String → Option String → ℚ) (c : Candidate) (a : ℚ),
      c.amount = some a → a ≠ 0 → (enrich fx c).fxRate ≠ 0 →
      (enrich fx c).amountEur = pyRound2 (a / (enrich fx c).fxRate)) ∧
    (∀ (fx : String → Option String → ℚ) (c : Candidate),
      truthyAmount c.amount = false ∨ (enrich fx c).fxRate = 0 →
      (enrich fx c).amountEur = 0) ∧
    (∀ (fx : String → Option String → ℚ) (c : Candidate),
      (enrich fx c).person = c.person.getD "Közös" ∧
      (enrich fx c).beneficiary = c.beneficiary.getD "") ∧
    (enrich fxUSD candUSD).amountEur = (926 / 100 : ℚ) ∧
    (enrich fxUSD candUSD).fxRate = (108 / 100 : ℚ) := by
  refine ⟨?_, ?_, ?_, ?_, ?_⟩
  · intro fx c a ha hane hr
    have hr' : getFxRate fx c.currency (some c.date) ≠ 0 := hr
    have htr : truthyAmount c.amount = true := by
      rw [ha]
      unfold truthyAmount
      simp [hane]
    unfold enrich
    dsimp only
    rw [if_pos ⟨hr', htr⟩, ha]
    exact round2div_eq a _ hr'
  · intro fx c hor
    unfold enrich
    dsimp only
    rw [if_neg]
    intro hcon
    rcases hor with hor | hor
    · rw [hor] at hcon; exact absurd hcon.2 (by simp)
    · exact hcon.1 hor
  · intro fx c; exact ⟨rfl, rfl⟩
  · rw [show (enrich fxUSD candUSD).amountEur = decVal 0 926 2 from by decide, decVal_eq]
    norm_num
  · rw [show (enrich fxUSD candUSD).fxRate = decVal 1 8 2 from by decide, decVal_eq]
    norm_num

theorem C8_witness :
    (enrich fxUSD candUSD).amountEur =
      pyRound2 (decVal 10 0 0 / (enrich fxUSD candUSD).fxRate) :=
  C8_enrichment.1 fxUSD candUSD (decVal 10 0 0) (by decide) (by decide) (by decide)

/-- **C9.**  `parse_european_amount` strips currency glyphs and every minus
sign before parsing, so any value it returns is a magnitude: never negative —
`"-6,50"` and `"€-1.524,55"` parse to the positive `6.50` and `1524.55`. -/
theorem C9_magnitude_only :
    (∀ (s : String) (q : ℚ), parseEuropeanAmount s = some q → 0 ≤ q) ∧
    parseEuropeanAmount "-6,50" = some (650 / 100 : ℚ) ∧
    parseEuropeanAmount "€-1.524,55" = some (152455 / 100 : ℚ) := by
  refine ⟨fun s q h => parseEuropeanAmount_nonneg h, ?_, ?_⟩
  · rw [show parseEuropeanAmount "-6,50" = some (decVal 6 50 2) from by decide, decVal_eq]
    norm_num
  · rw [show parseEuropeanAmount "€-1.524,55" = some (decVal 1524 55 2) from by decide,
      decVal_eq]
    norm_num

theorem C9_witness : (0 : ℚ) ≤ decVal 6 50 2 :=
  C9_magnitude_only.1 "-6,50" (decVal 6 50 2) (by decide)

/-- **C10.**  Every candidate emitted by any of the four parsers has currency
`"EUR"`; consequently `process_image` is independent of the FX oracle (the
non-EUR lookup is never exercised on parser-produced candidates) and every
enriched result carries `fx_rate = 1.0`. -/
theorem C10_currency_always_eur :
    (∀ (now : PyDate) (text : String), ∀ c ∈ revolutParse now text, c.currency = "EUR") ∧
    (∀ (now : PyDate) (text : String), ∀ c ∈ abnSingleParse now text, c.currency = "EUR") ∧
    (∀ (now : PyDate) (text : String), ∀ c ∈ abnListParse now text, c.currency = "EUR") ∧
    (∀ (now : PyDate) (text : String), ∀ c ∈ genericParse now text, c.currency = "EUR") ∧
    (∀ (fx fx' : String → Option String → ℚ) (now : PyDate) (text : String),
      processImage fx now text = processImage fx' now text) ∧
    (∀ (fx : String → Option String → ℚ) (now : PyDate) (text : String),
      ∀ e ∈ processImage fx now text, e.fxRate = 1) := by
  refine ⟨?_, ?_, ?_, ?_, ?_, ?_⟩
  · intro now text c hc; exact (revolutParse_char hc).2.2.1
  · intro now text c hc; exact (abnSingleParse_char hc).2
  · intro now text c hc; exact (abnListParse_char hc).2.1
  · intro now text c hc; exact (genericParse_char hc).2
  · intro fx fx' now t
    unfold processImage
    split
    · rfl
    · unfold pipelineE
      cases identifySourceApp t with
      | error e => rfl
      | ok src =>
        dsimp only
        apply List.map_congr_left
        intro c hc
        exact enrich_eur_eq fx fx' (parseBySource_currency hc)
  · intro fx now t e he
    unfold processImage at he
    split at he
    · simp at he
    · revert he
      unfold pipelineE
      cases identifySourceApp t with
      | error err => intro he; simp at he
      | ok src =>
        intro he
        dsimp only at he
        obtain ⟨c, hc, rfl⟩ := List.mem_map.mp he
        exact enrich_eur_fxRate fx (parseBySource_currency hc)

theorem C10_witness :
    totalEnriched.fxRate = 1 :=
  C10_currency_always_eur.2.2.2.2.2 fxUSD today0 "Total: 15,90" totalEnriched
    (by rw [show processImage fxUSD today0 "Total: 15,90" = [totalEnriched] from by decide]
        simp)

end ExpenseTracker
